import Mathlib

/-!
Verification development for the `ss-migrate` reconciliation engine.

The definitions below are a shallow embedding, translated from the Go
sources of the repository:

* `internal/engine` diff code (`CompareFields`, `ConvertDiffToResult`,
  `ConvertDiffToResultWithOrder`, `generateSummary`) — the variant with
  reorder detection and the hidden flag;
* `internal/engine` applier code (`Apply`, `addField`, `removeField`);
* `internal/engine/planner.go` (`analyzeSheet`);
* `internal/sheet/schema.go` (`InferColumnType`, `isNumeric`, `isDateTime`,
  `hasDecimal`, `ColumnToLetter`, `LetterToColumn`).

Conventions of the embedding:

* Go strings are Lean `String`s; the per-character loops are modelled on
  `List Char` (`String.toList`).
* Go `interface{}` sample values are modelled as `Option String`: the code
  under analysis only ever stringifies them with `fmt.Sprintf("%v", v)`
  (the identity on strings) and compares against `nil` (here `none`).
* Go maps built by keyed insertion are modelled as lookup of the *last*
  inserted binding (`mapLookup` below) or as explicit association lists
  where insertion order matters (`ChangeMap` below); the one place where
  Go iterates a map in unspecified order is modelled by an explicit
  iteration-order parameter.
* External effects (the Google Sheets client) are modelled with an
  explicit effect trace / state oracle.
-/

namespace SSMigrate

/-- `FieldInfo` from the engine diff code: name, type, format, hidden flag
and the position in the schema (Go `int`, zero value 0). -/
structure FieldInfo where
  name : String
  type : String := ""
  format : String := ""
  hidden : Bool := false
  position : Int := 0
deriving Repr, DecidableEq

/-- `ChangeType` constants `ADD`, `REMOVE`, `MODIFY`, `REORDER`, `NONE`. -/
inductive ChangeType where
  | add
  | remove
  | modify
  | reorder
  | nochange
deriving Repr, DecidableEq

/-- `FieldDiff` from the engine diff code. -/
structure FieldDiff where
  name : String
  type : ChangeType
  oldType : String
  newType : String
  oldFormat : String
  newFormat : String
  oldHidden : Bool
  newHidden : Bool
  description : String
deriving Repr, DecidableEq

/-- The `interface{}`-typed `OldValue`/`NewValue` payload of a `Change`:
the code stores either nothing, a `FieldInfo`, a `FieldDiff`, or a
`[]string` field order in it. -/
inductive ChangeValue where
  | vnone
  | vfield (f : FieldInfo)
  | vfieldDiff (d : FieldDiff)
  | vorder (names : List String)
deriving Repr, DecidableEq

/-- `Change` from the engine diff code. -/
structure Change where
  ctype : ChangeType
  path : String
  description : String
  oldValue : ChangeValue := ChangeValue.vnone
  newValue : ChangeValue := ChangeValue.vnone
deriving Repr, DecidableEq

/-- `SheetDiff` from the engine diff code (variant with reorder support). -/
structure SheetDiff where
  sheetName : String := ""
  fieldsToAdd : List FieldInfo
  fieldsToRemove : List FieldInfo
  fieldsToModify : List FieldDiff
  fieldsToReorder : Bool
  expectedOrder : List String
deriving Repr, DecidableEq

/-- `DiffResult` from the engine diff code. -/
structure DiffResult where
  changes : List Change
  hasChanges : Bool
  summary : String := ""
deriving Repr, DecidableEq

/-- Lookup in a Go map built by inserting every element of `fields` under
its name in list order: the *last* binding for a name wins. -/
def mapLookup (fields : List FieldInfo) (n : String) : Option FieldInfo :=
  fields.reverse.find? (fun f => f.name == n)

/-- `formatFieldType` from the engine diff code. -/
def formatFieldType (t fm : String) : String :=
  if fm ≠ "" then t ++ "(" ++ fm ++ ")" else t

/-- The body of the fields-to-modify loop of `CompareFields`: for a schema
field present in the current map, compare type/format as a pair and the
hidden flag independently, emitting a `FieldDiff` when either differs. -/
def modifyEntry (cf sf : FieldInfo) : Option FieldDiff :=
  let typeChanged := cf.type != sf.type || cf.format != sf.format
  let hiddenChanged := cf.hidden != sf.hidden
  let changes :=
    (if typeChanged then
      ["type from " ++ formatFieldType cf.type cf.format ++ " to " ++
        formatFieldType sf.type sf.format]
     else []) ++
    (if hiddenChanged then
      [if sf.hidden then "hide column" else "show column"]
     else [])
  if typeChanged || hiddenChanged then
    some { name := sf.name, type := ChangeType.modify,
           oldType := cf.type, newType := sf.type,
           oldFormat := cf.format, newFormat := sf.format,
           oldHidden := cf.hidden, newHidden := sf.hidden,
           description := String.intercalate ", " changes }
  else none

/-- `CompareFields` from the engine diff code (variant with reorder
detection and the hidden flag). -/
def CompareFields (currentFields schemaFields : List FieldInfo) : SheetDiff :=
  let currentMap := fun n => mapLookup currentFields n
  let schemaMap := fun n => mapLookup schemaFields n
  let fieldsToAdd := schemaFields.filter (fun f => (currentMap f.name).isNone)
  let fieldsToRemove := currentFields.filter (fun f => (schemaMap f.name).isNone)
  let fieldsToModify := schemaFields.filterMap (fun sf =>
    match currentMap sf.name with
    | none => none
    | some cf => modifyEntry cf sf)
  let expectedOrder :=
    (schemaFields.filter (fun f => (currentMap f.name).isSome)).map (·.name)
  let currentOrder :=
    (currentFields.filter (fun f => (schemaMap f.name).isSome)).map (·.name)
  let fieldsToReorder :=
    currentOrder.length == expectedOrder.length &&
      (currentOrder.zip expectedOrder).any (fun p => p.1 != p.2)
  { fieldsToAdd := fieldsToAdd
    fieldsToRemove := fieldsToRemove
    fieldsToModify := fieldsToModify
    fieldsToReorder := fieldsToReorder
    expectedOrder := expectedOrder }

/-! ## Result builder (`ConvertDiffToResult`, `ConvertDiffToResultWithOrder`) -/

/-- One inner pass of the exchange sort in the no-schema-order branch:
the candidate for slot `i` scans the remaining slots, swapping whenever its
`Position` exceeds the slot's; returns the final slot-`i` value and the
remaining slots after all swaps of this pass. -/
def selectPass (x : FieldInfo) : List FieldInfo → FieldInfo × List FieldInfo
  | [] => (x, [])
  | y :: ys =>
    if x.position > y.position then
      let r := selectPass y ys
      (r.1, x :: r.2)
    else
      let r := selectPass x ys
      (r.1, y :: r.2)

theorem selectPass_snd_length (x : FieldInfo) (l : List FieldInfo) :
    (selectPass x l).2.length = l.length := by
  induction l generalizing x with
  | nil => rfl
  | cons y ys ih =>
    by_cases h : x.position > y.position <;>
      simp [selectPass, h, ih]

/-- The double swap loop sorting `FieldsToAdd` ascending by `Position`
(from `ConvertDiffToResultWithOrder`'s no-schema-order branch). -/
def exchangeSort : List FieldInfo → List FieldInfo
  | [] => []
  | x :: xs =>
    let r := selectPass x xs
    r.1 :: exchangeSort r.2
termination_by l => l.length
decreasing_by
  simp only [selectPass_snd_length]
  simp

/-- The `Change` built for a field addition. -/
def addChange (sheetName : String) (f : FieldInfo) : Change :=
  let positionInfo :=
    if f.position ≥ 0 then " at position " ++ toString (f.position + 1) else ""
  { ctype := ChangeType.add
    path := sheetName ++ "." ++ f.name
    description := "Add new field '" ++ f.name ++ "' of type " ++
      formatFieldType f.type f.format ++ positionInfo
    newValue := ChangeValue.vfield f }

/-- The `Change` built for a field removal. -/
def removeChange (sheetName : String) (f : FieldInfo) : Change :=
  { ctype := ChangeType.remove
    path := sheetName ++ "." ++ f.name
    description := "Remove field '" ++ f.name ++ "'"
    oldValue := ChangeValue.vfield f }

/-- The `Change` built for a field modification (the whole `FieldDiff` is
stored in both `OldValue` and `NewValue`). -/
def modifyChange (sheetName : String) (d : FieldDiff) : Change :=
  { ctype := ChangeType.modify
    path := sheetName ++ "." ++ d.name
    description := d.description
    oldValue := ChangeValue.vfieldDiff d
    newValue := ChangeValue.vfieldDiff d }

/-- The Go map `changesByField`, modelled as an association list in first
insertion order of the keys (each Go insertion appends to the slice stored
under the key). -/
abbrev ChangeMap := List (String × List Change)

def cmInsert (m : ChangeMap) (k : String) (c : Change) : ChangeMap :=
  match m with
  | [] => [(k, [c])]
  | (k', cs) :: rest =>
    if k' = k then (k', cs ++ [c]) :: rest else (k', cs) :: cmInsert rest k c

def cmLookup (m : ChangeMap) (k : String) : Option (List Change) :=
  match m with
  | [] => none
  | (k', cs) :: rest => if k' = k then some cs else cmLookup rest k

def cmErase (m : ChangeMap) (k : String) : ChangeMap :=
  match m with
  | [] => []
  | (k', cs) :: rest => if k' = k then rest else (k', cs) :: cmErase rest k

/-- All changes of a diff keyed by field name, in collection order
(additions, then removals, then modifications). -/
def changesByField (diff : SheetDiff) (sheetName : String) : ChangeMap :=
  let items :=
    diff.fieldsToAdd.map (fun f => (f.name, addChange sheetName f)) ++
    diff.fieldsToRemove.map (fun f => (f.name, removeChange sheetName f)) ++
    diff.fieldsToModify.map (fun d => (d.name, modifyChange sheetName d))
  items.foldl (fun m p => cmInsert m p.1 p.2) []

/-- First emission pass of the schema-order branch: walk the schema fields,
emit and delete the collected changes of every schema field name present in
the map; returns the emitted changes and the remaining map. -/
def emitInOrder : List FieldInfo → ChangeMap → List Change × ChangeMap
  | [], m => ([], m)
  | sf :: rest, m =>
    match cmLookup m sf.name with
    | some cs =>
      let r := emitInOrder rest (cmErase m sf.name)
      (cs ++ r.1, r.2)
    | none => emitInOrder rest m

/-- `generateSummary` from the engine diff code. -/
def generateSummary (diff : SheetDiff) (sheetName : String) : String :=
  let parts :=
    (if diff.fieldsToAdd.length > 0 then
      [toString diff.fieldsToAdd.length ++ " field(s) to add"] else []) ++
    (if diff.fieldsToRemove.length > 0 then
      [toString diff.fieldsToRemove.length ++ " field(s) to remove"] else []) ++
    (if diff.fieldsToModify.length > 0 then
      [toString diff.fieldsToModify.length ++ " field(s) to modify"] else []) ++
    (if diff.fieldsToReorder then ["fields need reordering"] else [])
  if parts.length = 0 then
    "Sheet '" ++ sheetName ++ "' is up to date"
  else
    "Sheet '" ++ sheetName ++ "': " ++ String.intercalate ", " parts

/-- `ConvertDiffToResultWithOrder` from the engine diff code.

`leftoverOrder` models the unspecified iteration order of the Go
`for _, changes := range changesByField` loop over the keys remaining
after the schema-order pass: Go visits every remaining key exactly once in
an order the language does not define, so the function is stated relative
to an arbitrary key enumeration. `HasChanges` is set while collecting the
changes of the three diff lists and when a reorder change is appended,
hence it equals the disjunction below. -/
def ConvertDiffToResultWithOrder (diff : SheetDiff) (sheetName : String)
    (schemaFields : List FieldInfo) (leftoverOrder : List String) : DiffResult :=
  let m := changesByField diff sheetName
  let hasAny := !diff.fieldsToAdd.isEmpty || !diff.fieldsToRemove.isEmpty ||
    !diff.fieldsToModify.isEmpty
  let ordered :=
    if !schemaFields.isEmpty then
      let r := emitInOrder schemaFields m
      r.1 ++ leftoverOrder.flatMap (fun k => (cmLookup r.2 k).getD [])
    else
      (exchangeSort diff.fieldsToAdd).flatMap (fun f =>
        ((cmLookup m f.name).getD []).filter (fun c => c.ctype == ChangeType.add)) ++
      diff.fieldsToRemove.flatMap (fun f =>
        ((cmLookup m f.name).getD []).filter (fun c => c.ctype == ChangeType.remove)) ++
      diff.fieldsToModify.flatMap (fun d =>
        ((cmLookup m d.name).getD []).filter (fun c => c.ctype == ChangeType.modify))
  let withReorder :=
    if diff.fieldsToReorder then
      ordered ++ [{ ctype := ChangeType.reorder
                    path := sheetName
                    description := "Reorder fields to match schema: " ++
                      String.intercalate ", " diff.expectedOrder
                    newValue := ChangeValue.vorder diff.expectedOrder }]
    else ordered
  { changes := withReorder
    hasChanges := hasAny || diff.fieldsToReorder
    summary := generateSummary diff sheetName }

/-- `ConvertDiffToResult` delegates with a nil schema-field list (the
leftover iteration order is irrelevant in that branch). -/
def ConvertDiffToResult (diff : SheetDiff) (sheetName : String) : DiffResult :=
  ConvertDiffToResultWithOrder diff sheetName [] []

/-! ## Type classifier (`internal/sheet/schema.go`)

Sample values (`[]any` in Go, holding the cell strings or `nil`) are
modelled as `Option String`; `fmt.Sprintf("%v", v)` is the identity on the
strings the classifier sees. -/

/-- `unicode.IsSpace` (the white space recognised by `strings.TrimSpace`). -/
def goIsSpace (c : Char) : Bool :=
  c == ' ' || c == '\t' || c == '\n' || c == '\x0b' || c == '\x0c' ||
  c == '\r' || c.toNat == 0x85 || c.toNat == 0xA0 || c.toNat == 0x1680 ||
  (0x2000 ≤ c.toNat && c.toNat ≤ 0x200A) || c.toNat == 0x2028 ||
  c.toNat == 0x2029 || c.toNat == 0x202F || c.toNat == 0x205F ||
  c.toNat == 0x3000

/-- `strings.TrimSpace`. -/
def goTrim (s : String) : String :=
  ⟨((s.toList.dropWhile goIsSpace).reverse.dropWhile goIsSpace).reverse⟩

/-- ASCII case folding of one character. `strings.ToLower` maps characters
independently; for the sole use here (comparison against the ASCII literals
"true"/"false") the ASCII fold is extensionally equivalent. -/
def lowerChar (c : Char) : Char :=
  if 'A' ≤ c && c ≤ 'Z' then Char.ofNat (c.toNat + 32) else c

/-- `strings.ToLower` (ASCII fold, see `lowerChar`). -/
def goToLower (s : String) : String :=
  ⟨s.toList.map lowerChar⟩

/-- `strings.ReplaceAll(s, ",", "")` on the character list. -/
def stripCommas (cs : List Char) : List Char :=
  cs.filter (fun c => c ≠ ',')

/-- The character loop of `isNumeric`: at most one dot, only digits, dots
and signs, and a sign only on the first character (`i != 0` is the byte
index in Go, which is zero exactly on the first character). -/
def numLoop : Bool → Nat → List Char → Bool
  | _, _, [] => true
  | first, dots, c :: cs =>
    if c = '.' then
      if dots + 1 > 1 then false else numLoop false (dots + 1) cs
    else if ¬ c.isDigit ∧ c ≠ '-' ∧ c ≠ '+' then false
    else if (c = '-' ∨ c = '+') ∧ ¬ first then false
    else numLoop false dots cs

/-- `isNumeric` from `internal/sheet/schema.go`: the empty check precedes
the comma stripping. -/
def isNumeric (s : String) : Bool :=
  if s = "" then false
  else numLoop true 0 (stripCommas s.toList)

/-- `hasDecimal` from `internal/sheet/schema.go`: any non-nil sample whose
(unstripped, untrimmed) string contains a literal dot. -/
def hasDecimal (data : List (Option String)) : Bool :=
  data.any (fun x =>
    match x with
    | some v => v.toList.contains '.'
    | none => false)

/-! ### The datetime recognizers of `isDateTime`

The seven regular expressions are sequences of character-class atoms with
repetition bounds, matched at the start of the string (`^`), with the end
anchored only when the pattern ends in `$`. The `time.Parse` fallback is
modelled per layout with Go's `getnum` behaviour: zero-padded fields need
exactly two digits, unpadded fields take one or two (greedily, no
backtracking), 4-digit years go through `atoi` of the next four characters
and hence also accept a sign followed by three digits, an unmodelled
fractional second after a trailing seconds field is consumed, and month,
day, hour, minute and second are range-checked. -/

structure ReAtom where
  cls : Char → Bool
  lo : Nat
  hi : Nat

def reConsume (cls : Char → Bool) : Nat → List Char → Option (List Char)
  | 0, cs => some cs
  | _ + 1, [] => none
  | n + 1, c :: cs => if cls c then reConsume cls n cs else none

/-- Match a sequence of atoms at the start of `cs`; when `anchorEnd` the
whole of `cs` must be consumed. Repetition counts are tried exhaustively
(regexp backtracking). -/
def reMatch (anchorEnd : Bool) : List ReAtom → List Char → Bool
  | [], cs => !anchorEnd || cs.isEmpty
  | a :: as, cs =>
    (List.range' a.lo (a.hi + 1 - a.lo)).any (fun n =>
      match reConsume a.cls n cs with
      | some rest => reMatch anchorEnd as rest
      | none => false)

/-- `\d{lo,hi}` -/
def dAt (lo hi : Nat) : ReAtom := ⟨Char.isDigit, lo, hi⟩

/-- A literal character. -/
def cAt (c : Char) : ReAtom := ⟨fun x => x == c, 1, 1⟩

/-- `[+-]` -/
def signAt : ReAtom := ⟨fun x => x == '+' || x == '-', 1, 1⟩

/-- `^\d{4}-\d{2}-\d{2}T\d{2}:\d{2}:\d{2}` -/
def reISOPrefix : List ReAtom :=
  [dAt 4 4, cAt '-', dAt 2 2, cAt '-', dAt 2 2, cAt 'T',
   dAt 2 2, cAt ':', dAt 2 2, cAt ':', dAt 2 2]

/-- The seven patterns of `dateTimePatterns`, paired with their
end-anchoring (only `^\d{4}-\d{2}-\d{2}$` is end-anchored). -/
def dateTimeRegexes : List (List ReAtom × Bool) :=
  [(reISOPrefix, false),
   ([dAt 4 4, cAt '-', dAt 2 2, cAt '-', dAt 2 2, cAt ' ',
     dAt 2 2, cAt ':', dAt 2 2, cAt ':', dAt 2 2], false),
   ([dAt 4 4, cAt '-', dAt 2 2, cAt '-', dAt 2 2], true),
   ([dAt 1 2, cAt '/', dAt 1 2, cAt '/', dAt 4 4], false),
   ([dAt 1 2, cAt '-', dAt 1 2, cAt '-', dAt 4 4], false),
   (reISOPrefix ++ [signAt, dAt 2 2, cAt ':', dAt 2 2], false),
   (reISOPrefix ++ [cAt 'Z'], false)]

/-- Decimal value of a digit character. -/
def dVal (c : Char) : Nat := c.toNat - 48

/-- Exactly `n` digits (Go `getnum` with a zero-padded layout field). -/
def rdN : Nat → List Char → Option (Nat × List Char)
  | 0, cs => some (0, cs)
  | _ + 1, [] => none
  | n + 1, c :: cs =>
    if c.isDigit then
      match rdN n cs with
      | some (v, rest) => some (dVal c * 10 ^ n + v, rest)
      | none => none
    else none

/-- One or two digits, greedily (Go `getnum` with an unpadded field). -/
def rd12 : List Char → Option (Nat × List Char)
  | [] => none
  | c :: cs =>
    if c.isDigit then
      match cs with
      | c2 :: cs2 =>
        if c2.isDigit then some (dVal c * 10 + dVal c2, cs2)
        else some (dVal c, c2 :: cs2)
      | [] => some (dVal c, [])
    else none

/-- A literal layout character. -/
def rdLit (c : Char) : List Char → Option (List Char)
  | [] => none
  | c' :: cs => if c' = c then some cs else none

/-- A 4-digit year field (`stdLongYear`): `atoi` of the next four
characters, so either four digits or a sign and three digits. -/
def rdYear4 : List Char → Option (Int × List Char)
  | c1 :: c2 :: c3 :: c4 :: rest =>
    if (c1 == '+' || c1 == '-') && c2.isDigit && c3.isDigit && c4.isDigit then
      let v : Int := ((dVal c2 * 100 + dVal c3 * 10 + dVal c4 : Nat) : Int)
      some (if c1 == '-' then -v else v, rest)
    else if c1.isDigit && c2.isDigit && c3.isDigit && c4.isDigit then
      some (((dVal c1 * 1000 + dVal c2 * 100 + dVal c3 * 10 + dVal c4 : Nat) : Int), rest)
    else none
  | _ => none

/-- Consume an optional fractional second (`.` or `,` followed by at least
one digit) after a trailing seconds field. -/
def rdFrac : List Char → List Char
  | c :: c2 :: cs =>
    if (c == '.' || c == ',') && c2.isDigit then (c2 :: cs).dropWhile Char.isDigit
    else c :: c2 :: cs
  | cs => cs

def isLeap (y : Int) : Bool := y % 4 == 0 && (y % 100 != 0 || y % 400 == 0)

def daysIn (m : Nat) (y : Int) : Nat :=
  if m = 2 then (if isLeap y then 29 else 28)
  else if m = 4 ∨ m = 6 ∨ m = 9 ∨ m = 11 then 30
  else 31

def validYMD (y : Int) (m d : Nat) : Bool :=
  1 ≤ m && m ≤ 12 && 1 ≤ d && d ≤ daysIn m y

def validHMS (h mi sec : Nat) : Bool := h < 24 && mi < 60 && sec < 60

/-- The RFC3339 time zone: `Z` or `±hh:mm`, ending the string. -/
def goZone : List Char → Bool
  | ['Z'] => true
  | [c, c1, c2, ':', c3, c4] =>
    (c == '+' || c == '-') && c1.isDigit && c2.isDigit && c3.isDigit && c4.isDigit
  | _ => false

/-- `time.Parse` with `time.RFC3339` / `time.RFC3339Nano` (both accept the
same strings: the general parser takes an optional fraction after the
seconds in either layout). -/
def goParseRFC3339 (cs : List Char) : Bool :=
  (do
    let (y, cs) ← rdYear4 cs
    let cs ← rdLit '-' cs
    let (m, cs) ← rdN 2 cs
    let cs ← rdLit '-' cs
    let (d, cs) ← rdN 2 cs
    let cs ← rdLit 'T' cs
    let (h, cs) ← rdN 2 cs
    let cs ← rdLit ':' cs
    let (mi, cs) ← rdN 2 cs
    let cs ← rdLit ':' cs
    let (sec, cs) ← rdN 2 cs
    let cs := rdFrac cs
    if validYMD y m d && validHMS h mi sec && goZone cs then some () else none).isSome

/-- `time.Parse` with layout `2006-01-02`. -/
def goParseYMDDash (cs : List Char) : Bool :=
  (do
    let (y, cs) ← rdYear4 cs
    let cs ← rdLit '-' cs
    let (m, cs) ← rdN 2 cs
    let cs ← rdLit '-' cs
    let (d, cs) ← rdN 2 cs
    if cs.isEmpty && validYMD y m d then some () else none).isSome

/-- `time.Parse` with layout `2006-01-02 15:04:05`. -/
def goParseYMDDashTime (cs : List Char) : Bool :=
  (do
    let (y, cs) ← rdYear4 cs
    let cs ← rdLit '-' cs
    let (m, cs) ← rdN 2 cs
    let cs ← rdLit '-' cs
    let (d, cs) ← rdN 2 cs
    let cs ← rdLit ' ' cs
    let (h, cs) ← rdN 2 cs
    let cs ← rdLit ':' cs
    let (mi, cs) ← rdN 2 cs
    let cs ← rdLit ':' cs
    let (sec, cs) ← rdN 2 cs
    let cs := rdFrac cs
    if cs.isEmpty && validYMD y m d && validHMS h mi sec then some () else none).isSome

/-- `time.Parse` with layout `01/02/2006`. -/
def goParseUSPadded (cs : List Char) : Bool :=
  (do
    let (m, cs) ← rdN 2 cs
    let cs ← rdLit '/' cs
    let (d, cs) ← rdN 2 cs
    let cs ← rdLit '/' cs
    let (y, cs) ← rdYear4 cs
    if cs.isEmpty && validYMD y m d then some () else none).isSome

/-- `time.Parse` with layout `1/2/2006`. -/
def goParseUSFlex (cs : List Char) : Bool :=
  (do
    let (m, cs) ← rd12 cs
    let cs ← rdLit '/' cs
    let (d, cs) ← rd12 cs
    let cs ← rdLit '/' cs
    let (y, cs) ← rdYear4 cs
    if cs.isEmpty && validYMD y m d then some () else none).isSome

/-- `time.Parse` with layout `01-02-2006`. -/
def goParseUSDash (cs : List Char) : Bool :=
  (do
    let (m, cs) ← rdN 2 cs
    let cs ← rdLit '-' cs
    let (d, cs) ← rdN 2 cs
    let cs ← rdLit '-' cs
    let (y, cs) ← rdYear4 cs
    if cs.isEmpty && validYMD y m d then some () else none).isSome

/-- `time.Parse` with layout `2006/01/02`. -/
def goParseYMDSlash (cs : List Char) : Bool :=
  (do
    let (y, cs) ← rdYear4 cs
    let cs ← rdLit '/' cs
    let (m, cs) ← rdN 2 cs
    let cs ← rdLit '/' cs
    let (d, cs) ← rdN 2 cs
    if cs.isEmpty && validYMD y m d then some () else none).isSome

/-- `isDateTime` from `internal/sheet/schema.go`: any of the seven regular
expressions, or any of the eight `time.Parse` layouts (`time.RFC3339` and
`time.RFC3339Nano` accept the same strings and share one model). -/
def isDateTime (s : String) : Bool :=
  if s = "" then false
  else
    let cs := s.toList
    dateTimeRegexes.any (fun p => reMatch p.2 p.1 cs) ||
    goParseRFC3339 cs || goParseYMDDash cs || goParseYMDDashTime cs ||
    goParseUSPadded cs || goParseUSFlex cs || goParseUSDash cs ||
    goParseYMDSlash cs

/-- The flag state of `InferColumnType`'s sample loop. -/
structure InferFlags where
  hasNumber : Bool
  hasString : Bool
  hasBoolean : Bool
  hasDateTime : Bool
  allDateTime : Bool
deriving Repr, DecidableEq

/-- One iteration of `InferColumnType`'s sample loop. -/
def inferStep (fl : InferFlags) (x : Option String) : InferFlags :=
  match x with
  | none => fl
  | some v =>
    let s := goTrim v
    if goToLower s == "true" || goToLower s == "false" then
      { fl with hasBoolean := true, allDateTime := false }
    else
      let fl :=
        if isDateTime s then { fl with hasDateTime := true }
        else { fl with allDateTime := false }
      if isNumeric s then { fl with hasNumber := true }
      else if s != "" && !isDateTime s then { fl with hasString := true }
      else fl

/-- `InferColumnType` from `internal/sheet/schema.go`. -/
def InferColumnType (data : List (Option String)) : String :=
  if data.length = 0 then "string"
  else
    let fl := data.foldl inferStep
      { hasNumber := false, hasString := false, hasBoolean := false,
        hasDateTime := false, allDateTime := true }
    if fl.hasDateTime && fl.allDateTime then "datetime"
    else if fl.hasString then "string"
    else if fl.hasNumber then (if hasDecimal data then "number" else "integer")
    else if fl.hasBoolean then "boolean"
    else "string"

/-! ## Column letter conversions (`internal/sheet/schema.go`) -/

/-- The character list built by `ColumnToLetter`'s loop: each iteration
prepends `'A' + col % 26` and continues with `col/26 - 1` while that stays
non-negative (Go works on `int`; on non-negative input the loop runs again
exactly when `col ≥ 26`). -/
def ctlAux (col : Nat) : List Char :=
  if col < 26 then [Char.ofNat (65 + col % 26)]
  else ctlAux (col / 26 - 1) ++ [Char.ofNat (65 + col % 26)]
termination_by col
decreasing_by
  have hd : col / 26 < col := Nat.div_lt_self (by omega) (by omega)
  omega

/-- `ColumnToLetter` (on the non-negative column indices the callers pass). -/
def ColumnToLetter (col : Nat) : String := ⟨ctlAux col⟩

/-- The loop of `LetterToColumn`: accumulate base-26 digits `ch - 'A' + 1`
and decrement once at the last character. Go detects the last character by
byte index, which coincides with character position on the ASCII strings
`ColumnToLetter` produces. -/
def ltcGo (acc : Int) : List Char → Int
  | [] => acc
  | c :: cs =>
    let a := acc * 26 + ((c.toNat : Int) - 65 + 1)
    ltcGo (if cs.isEmpty then a - 1 else a) cs

/-- `LetterToColumn`. -/
def LetterToColumn (s : String) : Int := ltcGo 0 s.toList

/-! ## Apply orchestrator (`internal/engine` applier code)

The Google Sheets client is external; the calls the applier makes are
recorded as an explicit effect trace, and `Apply`'s per-change dispatch is
abstracted as a state oracle `σ → Change → σ × Option String` (`nil` error
or an error message). -/

/-- The client calls the applier can make. -/
inductive SheetEffect where
  | getHeaders (row : Nat)
  | insertColumn (idx : Nat)
  | updateValues (sheet : String) (colLetter : String) (row : Nat) (value : String)
  | clearValues (sheet : String) (colLetter : String) (row : Nat)
  | deleteColumn (idx : Nat)
deriving Repr, DecidableEq

/-- `removeField`: get the headers, locate the field's (first) column, and
clear that single header cell; an absent field is an error after the read.
Returns the effect trace and the error, mirroring the Go control flow. -/
def removeFieldGo (headers : List String) (headerRow : Nat)
    (sheetName fieldName : String) : List SheetEffect × Option String :=
  let hr := if headerRow = 0 then 1 else headerRow
  match headers.findIdx? (fun h => h == fieldName) with
  | none =>
    ([SheetEffect.getHeaders hr], some ("field " ++ fieldName ++ " not found"))
  | some j =>
    ([SheetEffect.getHeaders hr,
      SheetEffect.clearValues sheetName (ColumnToLetter j) hr], none)

/-- The position loop of `addField`: scan the schema fields after the one
being added; the first one already present among the headers gives the
insertion index (its first observed index); otherwise keep the default
`headers.length`. -/
def insertIndexLoop (laterFields headers : List String) : Nat :=
  match laterFields with
  | [] => headers.length
  | f :: fs =>
    match headers.findIdx? (fun h => h == f) with
    | some j => j
    | none => insertIndexLoop fs headers

/-- `addField`: get the headers, reject an already existing field, locate
the field in the schema order, compute the insertion index, insert a column
when inserting before the end, and write the header label. -/
def addFieldGo (resourceFields headers : List String) (headerRow : Nat)
    (sheetName fieldName : String) : List SheetEffect × Option String :=
  let hr := if headerRow = 0 then 1 else headerRow
  if headers.contains fieldName then
    ([SheetEffect.getHeaders hr],
     some ("field " ++ fieldName ++ " already exists"))
  else
    match resourceFields.findIdx? (fun f => f == fieldName) with
    | none =>
      ([SheetEffect.getHeaders hr],
       some ("field " ++ fieldName ++ " not found in schema"))
    | some i =>
      let insertIdx := insertIndexLoop (resourceFields.drop (i + 1)) headers
      ([SheetEffect.getHeaders hr] ++
        (if insertIdx < headers.length then [SheetEffect.insertColumn insertIdx] else []) ++
        [SheetEffect.updateValues sheetName (ColumnToLetter insertIdx) hr fieldName],
       none)

/-- The sheet contents, rows of cells. -/
abbrev Grid := List (List (Option String))

def setCell (g : Grid) (r c : Nat) (v : Option String) : Grid :=
  g.set r ((g.getD r []).set c v)

def getCell (g : Grid) (r c : Nat) : Option String :=
  (g.getD r []).getD c none

/-- Modelled from the spec: the store collaborator contract of §6
(`ClearHeaderCell` clears exactly the addressed cell, `WriteHeaderCell`
writes it, `InsertColumnBefore` shifts the addressed and later columns
right, physical column deletion removes the addressed column; reads leave
the store unchanged). The 1-based row/column references of the A1-style
range are converted back to 0-based grid coordinates. -/
def applyEffect (g : Grid) : SheetEffect → Grid
  | SheetEffect.getHeaders _ => g
  | SheetEffect.clearValues _ colLetter row =>
    setCell g (row - 1) (LetterToColumn colLetter).toNat none
  | SheetEffect.updateValues _ colLetter row v =>
    setCell g (row - 1) (LetterToColumn colLetter).toNat (some v)
  | SheetEffect.insertColumn idx =>
    g.map (fun rw => rw.take idx ++ none :: rw.drop idx)
  | SheetEffect.deleteColumn idx =>
    g.map (fun rw => rw.take idx ++ rw.drop (idx + 1))

def applyEffects (g : Grid) (es : List SheetEffect) : Grid :=
  es.foldl applyEffect g

/-- `ApplyResult` from the applier code (`[]error` as error messages). -/
structure ApplyResult where
  success : Bool
  message : String
  changesApplied : Nat
  errors : List String
deriving Repr, DecidableEq

/-- One iteration of `Apply`'s change loop. -/
def applyStep {σ : Type} (applyChange : σ → Change → σ × Option String)
    (acc : σ × ApplyResult) (c : Change) : σ × ApplyResult :=
  let r := applyChange acc.1 c
  match r.2 with
  | some msg =>
    (r.1, { acc.2 with
            errors := acc.2.errors ++ ["failed to apply " ++ c.path ++ ": " ++ msg],
            success := false })
  | none => (r.1, { acc.2 with changesApplied := acc.2.changesApplied + 1 })

/-- The final message selection of `Apply`. -/
def finishMessage (res : ApplyResult) : ApplyResult :=
  if res.success then
    { res with message := "Successfully applied " ++ toString res.changesApplied ++ " changes" }
  else
    { res with message := "Applied " ++ toString res.changesApplied ++ " changes with " ++
        toString res.errors.length ++ " errors" }

/-- `Apply` from the applier code, with the per-change dispatch
(`applyChange`) abstracted as a state oracle. -/
def ApplyGo {σ : Type} (applyChange : σ → Change → σ × Option String)
    (st : σ) (dryRun : Bool) (diff : DiffResult) : σ × ApplyResult :=
  if !diff.hasChanges then
    (st, { success := true, message := "No changes to apply",
           changesApplied := 0, errors := [] })
  else if dryRun then
    (st, { success := true,
           message := "DRY RUN: Would apply " ++ toString diff.changes.length ++ " changes",
           changesApplied := diff.changes.length, errors := [] })
  else
    let r := diff.changes.foldl (applyStep applyChange)
      (st, { success := true, message := "", changesApplied := 0, errors := [] })
    (r.1, finishMessage r.2)

/-- The state reached after dispatching a list of changes in order. -/
def applyFinalState {σ : Type} (f : σ → Change → σ × Option String)
    (st : σ) (cs : List Change) : σ :=
  cs.foldl (fun s c => (f s c).1) st

/-- The wrapped error messages collected by `Apply`'s loop, in change
order. -/
def applyErrors {σ : Type} (f : σ → Change → σ × Option String) :
    σ → List Change → List String
  | _, [] => []
  | s, c :: cs =>
    match (f s c).2 with
    | some m => ("failed to apply " ++ c.path ++ ": " ++ m) :: applyErrors f (f s c).1 cs
    | none => applyErrors f (f s c).1 cs

/-! ## Planner (`internal/engine/planner.go`) -/

/-- `analyzeSheet`: one `FieldInfo` per non-empty header, typed by
inferring from the column's sample data (or `string` when the column read
fails); only `Name` and `Type` are ever set, so `Format`, `Hidden` and
`Position` keep their Go zero values. The client is abstracted as the
header list and a per-column-index data oracle. -/
def analyzeSheet (headers : List String)
    (getData : Nat → Except String (List (Option String))) : List FieldInfo :=
  headers.enum.filterMap (fun p =>
    if p.2 = "" then none
    else some { name := p.2,
                type := match getData p.1 with
                        | Except.error _ => "string"
                        | Except.ok d => InferColumnType d,
                format := "", hidden := false, position := 0 })

/-! ## Lemmas about the diff engine -/

theorem mapLookup_eq_none_iff (fields : List FieldInfo) (n : String) :
    mapLookup fields n = none ↔ n ∉ fields.map (·.name) := by
  simp only [mapLookup, List.find?_eq_none, List.mem_reverse, List.mem_map,
    beq_iff_eq]
  constructor
  · rintro h ⟨f, hf, rfl⟩
    exact h f hf rfl
  · intro h f hf hn
    exact h ⟨f, hf, hn⟩

theorem mapLookup_mem {fields : List FieldInfo} {n : String} {f : FieldInfo}
    (h : mapLookup fields n = some f) : f ∈ fields ∧ f.name = n := by
  have h1 := List.mem_of_find?_eq_some h
  have h2 := List.find?_some h
  exact ⟨List.mem_reverse.mp h1, beq_iff_eq.mp h2⟩

theorem mapLookup_isSome_iff (fields : List FieldInfo) (n : String) :
    (mapLookup fields n).isSome ↔ n ∈ fields.map (·.name) := by
  constructor
  · intro hs
    obtain ⟨f, hf⟩ := Option.isSome_iff_exists.mp hs
    obtain ⟨hm, hn⟩ := mapLookup_mem hf
    exact List.mem_map.mpr ⟨f, hm, hn⟩
  · intro h
    rw [Option.isSome_iff_ne_none]
    intro he
    exact (mapLookup_eq_none_iff fields n).mp he h

theorem mapLookup_self_of_nodup {fields : List FieldInfo} {f : FieldInfo}
    (hn : (fields.map (·.name)).Nodup) (hf : f ∈ fields) :
    mapLookup fields f.name = some f := by
  have hs : (mapLookup fields f.name).isSome :=
    (mapLookup_isSome_iff fields f.name).mpr (List.mem_map.mpr ⟨f, hf, rfl⟩)
  obtain ⟨g, hg⟩ := Option.isSome_iff_exists.mp hs
  obtain ⟨hgmem, hgname⟩ := mapLookup_mem hg
  have := List.inj_on_of_nodup_map hn hgmem hf hgname
  rw [hg, this]

theorem modifyEntry_name {cf sf : FieldInfo} {d : FieldDiff}
    (h : modifyEntry cf sf = some d) : d.name = sf.name := by
  simp only [modifyEntry] at h
  split at h
  · injection h with h'
    rw [← h']
  · cases h

theorem modifyEntry_none_of_eq {cf sf : FieldInfo}
    (ht : cf.type = sf.type) (hf : cf.format = sf.format)
    (hh : cf.hidden = sf.hidden) : modifyEntry cf sf = none := by
  simp [modifyEntry, ht, hf, hh]

theorem mem_fieldsToAdd {cur sch : List FieldInfo} {f : FieldInfo} :
    f ∈ (CompareFields cur sch).fieldsToAdd ↔
      f ∈ sch ∧ mapLookup cur f.name = none := by
  simp [CompareFields, List.mem_filter, Option.isNone_iff_eq_none]

theorem mem_fieldsToRemove {cur sch : List FieldInfo} {f : FieldInfo} :
    f ∈ (CompareFields cur sch).fieldsToRemove ↔
      f ∈ cur ∧ mapLookup sch f.name = none := by
  simp [CompareFields, List.mem_filter, Option.isNone_iff_eq_none]

theorem mem_fieldsToModify {cur sch : List FieldInfo} {d : FieldDiff} :
    d ∈ (CompareFields cur sch).fieldsToModify ↔
      ∃ sf ∈ sch, ∃ cf, mapLookup cur sf.name = some cf ∧
        modifyEntry cf sf = some d := by
  simp only [CompareFields, List.mem_filterMap]
  constructor
  · rintro ⟨sf, hsf, hmatch⟩
    cases hlk : mapLookup cur sf.name with
    | none => rw [hlk] at hmatch; cases hmatch
    | some cf =>
      rw [hlk] at hmatch
      exact ⟨sf, hsf, cf, hlk, hmatch⟩
  · rintro ⟨sf, hsf, cf, hlk, hme⟩
    exact ⟨sf, hsf, by rw [hlk]; exact hme⟩

/-- C1: with pairwise-distinct names on each side, `CompareFields` puts a
name in at most one of `FieldsToAdd`, `FieldsToRemove`, `FieldsToModify`,
and a name present on both sides with identical type, format and hidden
flag produces no entry in any of the three lists. -/
theorem c1_change_lists_exclusive (cur sch : List FieldInfo)
    (hcur : (cur.map (·.name)).Nodup) (hsch : (sch.map (·.name)).Nodup) :
    (∀ n : String,
      ¬(n ∈ (CompareFields cur sch).fieldsToAdd.map (·.name) ∧
        n ∈ (CompareFields cur sch).fieldsToRemove.map (·.name)) ∧
      ¬(n ∈ (CompareFields cur sch).fieldsToAdd.map (·.name) ∧
        n ∈ (CompareFields cur sch).fieldsToModify.map (·.name)) ∧
      ¬(n ∈ (CompareFields cur sch).fieldsToRemove.map (·.name) ∧
        n ∈ (CompareFields cur sch).fieldsToModify.map (·.name))) ∧
    (∀ cf sf : FieldInfo, cf ∈ cur → sf ∈ sch → cf.name = sf.name →
      cf.type = sf.type → cf.format = sf.format → cf.hidden = sf.hidden →
      sf.name ∉ (CompareFields cur sch).fieldsToAdd.map (·.name) ∧
      sf.name ∉ (CompareFields cur sch).fieldsToRemove.map (·.name) ∧
      sf.name ∉ (CompareFields cur sch).fieldsToModify.map (·.name)) := by
  constructor
  · intro n
    refine ⟨?_, ?_, ?_⟩
    · rintro ⟨ha, hr⟩
      obtain ⟨f, hf, rfl⟩ := List.mem_map.mp ha
      obtain ⟨g, hg, hgn⟩ := List.mem_map.mp hr
      have h1 := (mem_fieldsToAdd.mp hf).2
      have h2 := (mem_fieldsToRemove.mp hg).1
      exact (mapLookup_eq_none_iff cur f.name).mp h1
        (List.mem_map.mpr ⟨g, h2, hgn⟩)
    · rintro ⟨ha, hm⟩
      obtain ⟨f, hf, rfl⟩ := List.mem_map.mp ha
      obtain ⟨d, hd, hdn⟩ := List.mem_map.mp hm
      obtain ⟨sf, _, cf, hlk, hme⟩ := mem_fieldsToModify.mp hd
      have h1 := (mem_fieldsToAdd.mp hf).2
      have : sf.name = f.name := (modifyEntry_name hme) ▸ hdn
      rw [this, h1] at hlk
      cases hlk
    · rintro ⟨hr, hm⟩
      obtain ⟨g, hg, rfl⟩ := List.mem_map.mp hr
      obtain ⟨d, hd, hdn⟩ := List.mem_map.mp hm
      obtain ⟨sf, hsf, cf, hlk, hme⟩ := mem_fieldsToModify.mp hd
      have h2 := (mem_fieldsToRemove.mp hg).2
      have hn : sf.name = g.name := (modifyEntry_name hme) ▸ hdn
      exact (mapLookup_eq_none_iff sch g.name).mp h2
        (List.mem_map.mpr ⟨sf, hsf, hn⟩)
  · intro cf sf hcf hsf hname htype hfmt hhid
    refine ⟨?_, ?_, ?_⟩
    · intro ha
      obtain ⟨f, hf, hfn⟩ := List.mem_map.mp ha
      have h1 := (mem_fieldsToAdd.mp hf).2
      rw [hfn, ← hname] at h1
      exact (mapLookup_eq_none_iff cur cf.name).mp h1
        (List.mem_map.mpr ⟨cf, hcf, rfl⟩)
    · intro hr
      obtain ⟨g, hg, hgn⟩ := List.mem_map.mp hr
      have h2 := (mem_fieldsToRemove.mp hg).2
      rw [hgn] at h2
      exact (mapLookup_eq_none_iff sch sf.name).mp h2
        (List.mem_map.mpr ⟨sf, hsf, rfl⟩)
    · intro hm
      obtain ⟨d, hd, hdn⟩ := List.mem_map.mp hm
      obtain ⟨sf', hsf', cf', hlk, hme⟩ := mem_fieldsToModify.mp hd
      have hn : sf'.name = sf.name := (modifyEntry_name hme) ▸ hdn
      have hsfeq : sf' = sf := List.inj_on_of_nodup_map hsch hsf' hsf hn
      rw [hsfeq] at hlk hme
      have hlk2 : mapLookup cur sf.name = some cf := by
        have h3 := mapLookup_self_of_nodup hcur hcf
        rw [hname] at h3
        exact h3
      rw [hlk2] at hlk
      injection hlk with he
      rw [← he] at hme
      rw [modifyEntry_none_of_eq htype hfmt hhid] at hme
      cases hme

/-- Witness for C1 at a concrete pair of field lists. -/
theorem c1_change_lists_exclusive_witness :
    ("id" : String) ∉ ((CompareFields
        [{ name := "id", type := "integer" }]
        [{ name := "id", type := "integer" },
         { name := "x", type := "string" }]).fieldsToAdd.map (·.name)) ∧
    ("id" : String) ∉ ((CompareFields
        [{ name := "id", type := "integer" }]
        [{ name := "id", type := "integer" },
         { name := "x", type := "string" }]).fieldsToRemove.map (·.name)) ∧
    ("id" : String) ∉ ((CompareFields
        [{ name := "id", type := "integer" }]
        [{ name := "id", type := "integer" },
         { name := "x", type := "string" }]).fieldsToModify.map (·.name)) :=
  (c1_change_lists_exclusive
    [{ name := "id", type := "integer" }]
    [{ name := "id", type := "integer" }, { name := "x", type := "string" }]
    (by decide) (by decide)).2
    { name := "id", type := "integer" } { name := "id", type := "integer" }
    (by decide) (by decide) rfl rfl rfl rfl

/-- The observed-ordered name sequence restricted to the names also
present in the schema — the `currentOrder` local of `CompareFields`. -/
def currentOrderOf (cur sch : List FieldInfo) : List String :=
  (cur.filter (fun f => (mapLookup sch f.name).isSome)).map (·.name)

theorem expectedOrder_eq (cur sch : List FieldInfo) :
    (CompareFields cur sch).expectedOrder =
      (sch.filter (fun f => (mapLookup cur f.name).isSome)).map (·.name) := rfl

theorem fieldsToReorder_eq (cur sch : List FieldInfo) :
    (CompareFields cur sch).fieldsToReorder =
      ((currentOrderOf cur sch).length == (CompareFields cur sch).expectedOrder.length &&
        ((currentOrderOf cur sch).zip (CompareFields cur sch).expectedOrder).any
          (fun p => p.1 != p.2)) := rfl

theorem mem_expectedOrder (cur sch : List FieldInfo) (n : String) :
    n ∈ (CompareFields cur sch).expectedOrder ↔
      n ∈ sch.map (·.name) ∧ n ∈ cur.map (·.name) := by
  rw [expectedOrder_eq]
  constructor
  · intro h
    obtain ⟨f, hf, rfl⟩ := List.mem_map.mp h
    obtain ⟨hmem, hsome⟩ := List.mem_filter.mp hf
    exact ⟨List.mem_map.mpr ⟨f, hmem, rfl⟩, (mapLookup_isSome_iff cur f.name).mp hsome⟩
  · rintro ⟨hs, hc⟩
    obtain ⟨f, hf, rfl⟩ := List.mem_map.mp hs
    exact List.mem_map.mpr
      ⟨f, List.mem_filter.mpr ⟨hf, (mapLookup_isSome_iff cur f.name).mpr hc⟩, rfl⟩

theorem mem_currentOrderOf (cur sch : List FieldInfo) (n : String) :
    n ∈ currentOrderOf cur sch ↔
      n ∈ sch.map (·.name) ∧ n ∈ cur.map (·.name) := by
  unfold currentOrderOf
  constructor
  · intro h
    obtain ⟨f, hf, rfl⟩ := List.mem_map.mp h
    obtain ⟨hmem, hsome⟩ := List.mem_filter.mp hf
    exact ⟨(mapLookup_isSome_iff sch f.name).mp hsome, List.mem_map.mpr ⟨f, hmem, rfl⟩⟩
  · rintro ⟨hs, hc⟩
    obtain ⟨f, hf, rfl⟩ := List.mem_map.mp hc
    exact List.mem_map.mpr
      ⟨f, List.mem_filter.mpr ⟨hf, (mapLookup_isSome_iff sch f.name).mpr hs⟩, rfl⟩

theorem filtered_names_nodup (l : List FieldInfo) (p : FieldInfo → Bool)
    (h : (l.map (·.name)).Nodup) : ((l.filter p).map (·.name)).Nodup :=
  List.Nodup.sublist (List.Sublist.map _ (List.filter_sublist l)) h

theorem zip_any_ne_iff (xs : List String) : ∀ ys, xs.length = ys.length →
    (((xs.zip ys).any fun p => p.1 != p.2) = true ↔ xs ≠ ys) := by
  induction xs with
  | nil =>
    intro ys h
    cases ys with
    | nil => simp
    | cons y ys => simp at h
  | cons x xs ih =>
    intro ys h
    cases ys with
    | nil => simp at h
    | cons y ys =>
      simp only [List.length_cons, Nat.succ.injEq] at h
      simp only [List.zip_cons_cons, List.any_cons, Bool.or_eq_true, bne_iff_ne]
      rw [ih ys h]
      constructor
      · rintro (hxy | hne) hc
        · injection hc with h1 h2
          exact hxy h1
        · injection hc with h1 h2
          exact hne h2
      · intro hc
        by_cases hxy : x = y
        · subst hxy
          right
          intro he
          exact hc (by rw [he])
        · left
          exact hxy

theorem ne_iff_exists_getq (xs ys : List String) :
    xs ≠ ys ↔ ∃ i, xs.get? i ≠ ys.get? i := by
  constructor
  · intro h
    by_contra hc
    push_neg at hc
    exact h (List.ext_get? hc)
  · rintro ⟨i, hi⟩ rfl
    exact hi rfl

/-- C2: with pairwise-distinct names on each side, the two compared name
sequences (schema order restricted to observed names, observed order
restricted to schema names) have equal length, and `FieldsToReorder` is
true exactly when they differ at some position. Both sequences are built
from the name intersection only, so fields pending addition or removal
never enter the comparison. -/
theorem c2_reorder_flag (cur sch : List FieldInfo)
    (hcur : (cur.map (·.name)).Nodup) (hsch : (sch.map (·.name)).Nodup) :
    (CompareFields cur sch).expectedOrder.length = (currentOrderOf cur sch).length ∧
    ((CompareFields cur sch).fieldsToReorder = true ↔
      ∃ i, (CompareFields cur sch).expectedOrder.get? i ≠ (currentOrderOf cur sch).get? i) := by
  have hn1 : (CompareFields cur sch).expectedOrder.Nodup := by
    rw [expectedOrder_eq]
    exact filtered_names_nodup sch _ hsch
  have hn2 : (currentOrderOf cur sch).Nodup :=
    filtered_names_nodup cur _ hcur
  have hfin : (CompareFields cur sch).expectedOrder.toFinset =
      (currentOrderOf cur sch).toFinset := by
    apply Finset.ext
    intro n
    rw [List.mem_toFinset, List.mem_toFinset, mem_expectedOrder, mem_currentOrderOf]
  have hlen : (CompareFields cur sch).expectedOrder.length =
      (currentOrderOf cur sch).length := by
    rw [← List.toFinset_card_of_nodup hn1, ← List.toFinset_card_of_nodup hn2, hfin]
  refine ⟨hlen, ?_⟩
  rw [fieldsToReorder_eq, Bool.and_eq_true, beq_iff_eq]
  rw [zip_any_ne_iff _ _ hlen.symm]
  constructor
  · rintro ⟨-, hne⟩
    rw [ne_iff_exists_getq] at hne
    obtain ⟨i, hi⟩ := hne
    exact ⟨i, fun he => hi he.symm⟩
  · rintro ⟨i, hi⟩
    refine ⟨hlen.symm, ?_⟩
    rw [ne_iff_exists_getq]
    exact ⟨i, fun he => hi he.symm⟩

/-- Witness for C2 at a concrete swapped pair of field lists. -/
theorem c2_reorder_flag_witness :
    ∃ i, (CompareFields
        [{ name := "id" }, { name := "email" }, { name := "name" }]
        [{ name := "id" }, { name := "name" }, { name := "email" }]).expectedOrder.get? i ≠
      (currentOrderOf
        [{ name := "id" }, { name := "email" }, { name := "name" }]
        [{ name := "id" }, { name := "name" }, { name := "email" }]).get? i :=
  (c2_reorder_flag
    [{ name := "id" }, { name := "email" }, { name := "name" }]
    [{ name := "id" }, { name := "name" }, { name := "email" }]
    (by decide) (by decide)).2.mp (by decide)

/-! ## Lemmas about the column letter conversions -/

theorem toNat_ofNat_base (r : Nat) (h : r < 26) :
    (Char.ofNat (65 + r)).toNat = 65 + r := by
  interval_cases r <;> decide

theorem ctlAux_ne_nil (col : Nat) : ctlAux col ≠ [] := by
  rw [ctlAux]
  split <;> simp

theorem foldl_ctlAux (col : Nat) :
    (ctlAux col).foldl (fun a c => a * 26 + ((c.toNat : Int) - 65 + 1)) 0 =
      (col : Int) + 1 := by
  induction col using Nat.strong_induction_on with
  | _ col ih =>
    rw [ctlAux]
    split
    · rename_i hlt
      simp only [List.foldl_cons, List.foldl_nil]
      rw [toNat_ofNat_base (col % 26) (Nat.mod_lt _ (by omega))]
      have hmod : col % 26 = col := Nat.mod_eq_of_lt hlt
      rw [hmod]
      push_cast
      ring
    · rename_i hge
      have hd : col / 26 < col := Nat.div_lt_self (by omega) (by omega)
      rw [List.foldl_append, ih (col / 26 - 1) (by omega)]
      simp only [List.foldl_cons, List.foldl_nil]
      rw [toNat_ofNat_base (col % 26) (Nat.mod_lt _ (by omega))]
      have hqr : 26 * (col / 26) + col % 26 = col := Nat.div_add_mod col 26
      have hq : 1 ≤ col / 26 := by omega
      push_cast
      omega

theorem ltcGo_eq_foldl (cs : List Char) (h : cs ≠ []) : ∀ acc : Int,
    ltcGo acc cs =
      cs.foldl (fun a c => a * 26 + ((c.toNat : Int) - 65 + 1)) acc - 1 := by
  induction cs with
  | nil => exact absurd rfl h
  | cons c cs ih =>
    intro acc
    by_cases hcs : cs = []
    · subst hcs
      simp [ltcGo]
    · have he : cs.isEmpty = false := by
        cases cs with
        | nil => exact absurd rfl hcs
        | cons a as => rfl
      rw [ltcGo]
      simp only [he, if_false, Bool.false_eq_true]
      rw [ih hcs]
      rfl

/-- The roundtrip on the character level, shared by the claims that need
to map a produced column letter back to its index. -/
theorem letter_roundtrip (col : Nat) :
    LetterToColumn (ColumnToLetter col) = (col : Int) := by
  unfold LetterToColumn ColumnToLetter
  rw [show (String.mk (ctlAux col)).toList = ctlAux col from rfl]
  rw [ltcGo_eq_foldl _ (ctlAux_ne_nil col) 0, foldl_ctlAux col]
  omega

/-- C10: converting a non-negative column index to a spreadsheet column
letter and back is the identity, with `0 ↔ "A"`, `25 ↔ "Z"`, `26 ↔ "AA"`. -/
theorem c10_column_letter_roundtrip :
    (∀ col : Nat, LetterToColumn (ColumnToLetter col) = (col : Int)) ∧
    ColumnToLetter 0 = "A" ∧ ColumnToLetter 25 = "Z" ∧
    ColumnToLetter 26 = "AA" ∧
    LetterToColumn "A" = 0 ∧ LetterToColumn "Z" = 25 ∧ LetterToColumn "AA" = 26 := by
  refine ⟨letter_roundtrip, ?_, ?_, ?_, by decide, by decide, by decide⟩
  · rw [ColumnToLetter, ctlAux]
    norm_num
  · rw [ColumnToLetter, ctlAux]
    norm_num
  · rw [ColumnToLetter, ctlAux, ctlAux]
    norm_num

/-! ## Lemmas about the add-field placement loop -/

theorem insertIndexLoop_of_absent (laterFields headers : List String)
    (h : ∀ g ∈ laterFields, g ∉ headers) :
    insertIndexLoop laterFields headers = headers.length := by
  induction laterFields with
  | nil => rfl
  | cons f fs ih =>
    have hf : headers.findIdx? (fun x => x == f) = none :=
      List.findIdx?_eq_none_iff.mpr (fun x hx =>
        beq_eq_false_iff_ne.mpr (fun he => h f (List.mem_cons_self _ _) (he ▸ hx)))
    simp only [insertIndexLoop, hf]
    exact ih (fun g hg => h g (List.mem_cons_of_mem _ hg))

theorem insertIndexLoop_found (headers : List String) :
    ∀ (pre : List String) (f : String) (post : List String),
      (∀ g ∈ pre, g ∉ headers) → f ∈ headers →
      ∃ j, headers.findIdx? (fun x => x == f) = some j ∧
        insertIndexLoop (pre ++ f :: post) headers = j := by
  intro pre
  induction pre with
  | nil =>
    intro f post _ hf
    have hne : headers.findIdx? (fun x => x == f) ≠ none := by
      intro hnone
      have := List.findIdx?_eq_none_iff.mp hnone f hf
      simp at this
    obtain ⟨j, hj⟩ := Option.ne_none_iff_exists'.mp hne
    refine ⟨j, hj, ?_⟩
    simp only [List.nil_append, insertIndexLoop, hj]
  | cons g gs ih =>
    intro f post hpre hf
    obtain ⟨j, hj, hloop⟩ :=
      ih f post (fun x hx => hpre x (List.mem_cons_of_mem _ hx)) hf
    refine ⟨j, hj, ?_⟩
    have hg : headers.findIdx? (fun x => x == g) = none :=
      List.findIdx?_eq_none_iff.mpr (fun x hx =>
        beq_eq_false_iff_ne.mpr (fun he => hpre g (List.mem_cons_self _ _) (he ▸ hx)))
    simp only [List.cons_append, insertIndexLoop, hg]
    exact hloop

/-- C4: `addField` computes the insertion index by locating the added
field in the schema order and scanning the later schema fields: the index
is the current observed index of the first later schema field present
among the headers (insert-before), or the header count when none is
present (append at end); the column insert and header write use exactly
that index. For schema order `[id, name, email, created_at]` and headers
`[id, name, created_at]`, adding `email` yields insertion index 2. -/
theorem c4_addField_insert_index
    (resourceFields headers : List String) (headerRow : Nat)
    (sheetName fieldName : String) (i : Nat)
    (hnotin : headers.contains fieldName = false)
    (hidx : resourceFields.findIdx? (fun f => f == fieldName) = some i) :
    (∀ pre f post, resourceFields.drop (i + 1) = pre ++ f :: post →
        (∀ g ∈ pre, g ∉ headers) → f ∈ headers →
        ∃ j, headers.findIdx? (fun x => x == f) = some j ∧
          insertIndexLoop (resourceFields.drop (i + 1)) headers = j) ∧
    ((∀ g ∈ resourceFields.drop (i + 1), g ∉ headers) →
        insertIndexLoop (resourceFields.drop (i + 1)) headers = headers.length) ∧
    addFieldGo resourceFields headers headerRow sheetName fieldName =
      ([SheetEffect.getHeaders (if headerRow = 0 then 1 else headerRow)] ++
        (if insertIndexLoop (resourceFields.drop (i + 1)) headers < headers.length then
          [SheetEffect.insertColumn (insertIndexLoop (resourceFields.drop (i + 1)) headers)]
        else []) ++
        [SheetEffect.updateValues sheetName
          (ColumnToLetter (insertIndexLoop (resourceFields.drop (i + 1)) headers))
          (if headerRow = 0 then 1 else headerRow) fieldName], none) ∧
    insertIndexLoop (["id", "name", "email", "created_at"].drop (2 + 1))
      ["id", "name", "created_at"] = 2 := by
  refine ⟨?_, ?_, ?_, by decide⟩
  · intro pre f post hdec hpre hf
    rw [hdec]
    exact insertIndexLoop_found headers pre f post hpre hf
  · exact insertIndexLoop_of_absent _ headers
  · have hmem : fieldName ∉ headers := by simpa using hnotin
    simp [addFieldGo, hnotin, hidx, hmem]

/-- Witness for C4 at the Scenario C inputs. -/
theorem c4_addField_insert_index_witness :
    ∃ j, (["id", "name", "created_at"].findIdx? (fun x => x == "created_at")) = some j ∧
      insertIndexLoop (["id", "name", "email", "created_at"].drop (2 + 1))
        ["id", "name", "created_at"] = j :=
  (c4_addField_insert_index ["id", "name", "email", "created_at"]
      ["id", "name", "created_at"] 1 "S" "email" 2 (by decide) (by decide)).1
    [] "created_at" [] (by decide) (by simp) (by decide)

/-! ## Lemmas about the apply loop -/

/-- The number of changes dispatched without error. -/
def applyOkCount {σ : Type} (f : σ → Change → σ × Option String) :
    σ → List Change → Nat
  | _, [] => 0
  | s, c :: cs =>
    match (f s c).2 with
    | some _ => applyOkCount f (f s c).1 cs
    | none => applyOkCount f (f s c).1 cs + 1

theorem applyErrors_okCount_length {σ : Type}
    (f : σ → Change → σ × Option String) :
    ∀ (cs : List Change) (s : σ),
      (applyErrors f s cs).length + applyOkCount f s cs = cs.length := by
  intro cs
  induction cs with
  | nil => intro s; rfl
  | cons c cs ih =>
    intro s
    cases hfc : (f s c).2 with
    | none =>
      simp only [applyErrors, applyOkCount, hfc, List.length_cons]
      have := ih (f s c).1
      omega
    | some m =>
      simp only [applyErrors, applyOkCount, hfc, List.length_cons]
      have := ih (f s c).1
      omega

theorem finishMessage_errors (x : ApplyResult) :
    (finishMessage x).errors = x.errors := by
  unfold finishMessage
  split <;> rfl

theorem finishMessage_success (x : ApplyResult) :
    (finishMessage x).success = x.success := by
  unfold finishMessage
  split <;> rfl

theorem finishMessage_changesApplied (x : ApplyResult) :
    (finishMessage x).changesApplied = x.changesApplied := by
  unfold finishMessage
  split <;> rfl

theorem applyFold_spec {σ : Type} (f : σ → Change → σ × Option String) :
    ∀ (cs : List Change) (s : σ) (r : ApplyResult),
      (cs.foldl (applyStep f) (s, r)).1 = applyFinalState f s cs ∧
      (cs.foldl (applyStep f) (s, r)).2.errors = r.errors ++ applyErrors f s cs ∧
      (cs.foldl (applyStep f) (s, r)).2.changesApplied =
        r.changesApplied + applyOkCount f s cs ∧
      (cs.foldl (applyStep f) (s, r)).2.success =
        (r.success && (applyErrors f s cs).isEmpty) := by
  intro cs
  induction cs with
  | nil =>
    intro s r
    simp [applyFinalState, applyErrors, applyOkCount]
  | cons c cs ih =>
    intro s r
    rw [List.foldl_cons]
    cases hfc : (f s c).2 with
    | none =>
      have hstep : applyStep f (s, r) c =
          ((f s c).1, { r with changesApplied := r.changesApplied + 1 }) := by
        simp [applyStep, hfc]
      rw [hstep]
      obtain ⟨h1, h2, h3, h4⟩ := ih (f s c).1 { r with changesApplied := r.changesApplied + 1 }
      refine ⟨h1, ?_, ?_, ?_⟩
      · rw [h2]
        simp only [applyErrors, hfc]
      · rw [h3]
        simp only [applyOkCount, hfc]
        omega
      · rw [h4]
        simp only [applyErrors, hfc]
    | some m =>
      have hstep : applyStep f (s, r) c =
          ((f s c).1, { r with
            errors := r.errors ++ ["failed to apply " ++ c.path ++ ": " ++ m],
            success := false }) := by
        simp [applyStep, hfc]
      rw [hstep]
      obtain ⟨h1, h2, h3, h4⟩ := ih (f s c).1 { r with
        errors := r.errors ++ ["failed to apply " ++ c.path ++ ": " ++ m],
        success := false }
      refine ⟨h1, ?_, ?_, ?_⟩
      · rw [h2]
        simp only [applyErrors, hfc, List.append_assoc, List.singleton_append]
      · rw [h3]
        simp only [applyOkCount, hfc]
      · rw [h4]
        simp only [applyErrors, hfc, Bool.false_and]
        simp

/-- C6: in non-dry-run apply mode with changes present, every change is
dispatched (the final oracle state is the fold over the whole change
list — a failure never halts the loop), the result carries exactly the
collected per-change error messages in order, it reports success iff no
per-change error occurred, and the applied/failed counts partition the
change list. -/
theorem c6_apply_best_effort {σ : Type} (f : σ → Change → σ × Option String)
    (st : σ) (diff : DiffResult) (h : diff.hasChanges = true) :
    (ApplyGo f st false diff).1 = applyFinalState f st diff.changes ∧
    (ApplyGo f st false diff).2.errors = applyErrors f st diff.changes ∧
    ((ApplyGo f st false diff).2.success = true ↔
      (ApplyGo f st false diff).2.errors = []) ∧
    (ApplyGo f st false diff).2.changesApplied +
      (ApplyGo f st false diff).2.errors.length = diff.changes.length := by
  obtain ⟨cs, hch, sm⟩ := diff
  have hch' : hch = true := h
  subst hch'
  have hrun : ApplyGo f st false { changes := cs, hasChanges := true, summary := sm } =
      ((cs.foldl (applyStep f)
          (st, { success := true, message := "", changesApplied := 0, errors := [] })).1,
        finishMessage (cs.foldl (applyStep f)
          (st, { success := true, message := "", changesApplied := 0, errors := [] })).2) := rfl
  obtain ⟨h1, h2, h3, h4⟩ := applyFold_spec f cs st
    { success := true, message := "", changesApplied := 0, errors := [] }
  rw [hrun]
  refine ⟨h1, ?_, ?_, ?_⟩
  · rw [finishMessage_errors, h2]
    simp
  · rw [finishMessage_success, finishMessage_errors, h4, h2]
    simp only [Bool.true_and, List.nil_append]
    rw [List.isEmpty_iff]
  · rw [finishMessage_changesApplied, finishMessage_errors, h3, h2]
    simp only [List.nil_append, Nat.zero_add]
    rw [Nat.add_comm]
    exact applyErrors_okCount_length f cs st

/-- A concrete dispatch oracle: counts the dispatched changes and fails on
the path `T.bad`. -/
def exampleOracle (s : Nat) (c : Change) : Nat × Option String :=
  (s + 1, if c.path = "T.bad" then some "boom" else none)

/-- A concrete two-change diff whose second change fails under
`exampleOracle`. -/
def exampleDiff : DiffResult :=
  { changes := [{ ctype := ChangeType.add, path := "T.ok", description := "" },
                { ctype := ChangeType.remove, path := "T.bad", description := "" }],
    hasChanges := true }

/-- Witness for C6 at a concrete oracle and diff. -/
theorem c6_apply_best_effort_witness :
    (ApplyGo exampleOracle 0 false exampleDiff).1 =
      applyFinalState exampleOracle 0 exampleDiff.changes ∧
    (ApplyGo exampleOracle 0 false exampleDiff).2.errors =
      applyErrors exampleOracle 0 exampleDiff.changes ∧
    ((ApplyGo exampleOracle 0 false exampleDiff).2.success = true ↔
      (ApplyGo exampleOracle 0 false exampleDiff).2.errors = []) ∧
    (ApplyGo exampleOracle 0 false exampleDiff).2.changesApplied +
      (ApplyGo exampleOracle 0 false exampleDiff).2.errors.length =
      exampleDiff.changes.length :=
  c6_apply_best_effort exampleOracle 0 exampleDiff rfl

/-! ## Lemmas about the grid model and `removeField` -/

theorem getCell_eq (g : Grid) (r c : Nat) :
    getCell g r c = ((g[r]?.getD [])[c]?).getD none := by
  unfold getCell
  rw [List.getD_eq_getElem?_getD, List.getD_eq_getElem?_getD]

theorem getCell_setCell_self (g : Grid) (r c : Nat) :
    getCell (setCell g r c none) r c = none := by
  rw [getCell_eq]
  unfold setCell
  rw [List.getElem?_set, if_pos rfl]
  by_cases hr : r < g.length
  · rw [if_pos hr]
    simp only [Option.getD_some]
    rw [List.getElem?_set, if_pos rfl]
    by_cases hc : c < (g.getD r []).length
    · rw [if_pos hc]
      rfl
    · rw [if_neg hc]
      rfl
  · rw [if_neg hr]
    simp

theorem getCell_setCell_ne (g : Grid) (r c r' c' : Nat) (v : Option String)
    (h : ¬(r' = r ∧ c' = c)) :
    getCell (setCell g r c v) r' c' = getCell g r' c' := by
  rw [getCell_eq, getCell_eq]
  unfold setCell
  rw [List.getElem?_set]
  by_cases hr : r = r'
  · rw [if_pos hr]
    subst hr
    have hc : c ≠ c' := fun he => h ⟨rfl, he.symm⟩
    by_cases hlen : r < g.length
    · rw [if_pos hlen]
      simp only [Option.getD_some]
      rw [List.getElem?_set, if_neg hc]
      rw [List.getD_eq_getElem?_getD]
    · rw [if_neg hlen]
      have hnone : g[r]? = none := List.getElem?_eq_none (by omega)
      rw [hnone]
  · rw [if_neg hr]

theorem colLetter_toNat (j : Nat) :
    (LetterToColumn (ColumnToLetter j)).toNat = j := by
  rw [letter_roundtrip]
  exact Int.toNat_natCast j

/-- C7: processing a Remove change issues exactly a header read and a
single-cell clear of the located header cell; interpreting that trace on
any grid empties that cell and leaves every other cell unchanged, and
`removeField` never emits a physical column deletion (nor any column
insert or write) on any input. -/
theorem c7_remove_clears_header_only
    (headers : List String) (headerRow : Nat) (sheetName fieldName : String)
    (g : Grid) (j : Nat)
    (hj : headers.findIdx? (fun h => h == fieldName) = some j) :
    (removeFieldGo headers headerRow sheetName fieldName).1 =
      [SheetEffect.getHeaders (if headerRow = 0 then 1 else headerRow),
       SheetEffect.clearValues sheetName (ColumnToLetter j)
         (if headerRow = 0 then 1 else headerRow)] ∧
    (removeFieldGo headers headerRow sheetName fieldName).2 = none ∧
    getCell (applyEffects g (removeFieldGo headers headerRow sheetName fieldName).1)
      ((if headerRow = 0 then 1 else headerRow) - 1) j = none ∧
    (∀ r c : Nat, ¬(r = (if headerRow = 0 then 1 else headerRow) - 1 ∧ c = j) →
      getCell (applyEffects g (removeFieldGo headers headerRow sheetName fieldName).1) r c =
        getCell g r c) ∧
    (∀ (headers' : List String) (headerRow' : Nat) (sheetName' fieldName' : String),
      ∀ e ∈ (removeFieldGo headers' headerRow' sheetName' fieldName').1,
        (∀ i, e ≠ SheetEffect.deleteColumn i) ∧
        (∀ i, e ≠ SheetEffect.insertColumn i) ∧
        (∀ s l r v, e ≠ SheetEffect.updateValues s l r v)) := by
  have htr : (removeFieldGo headers headerRow sheetName fieldName).1 =
      [SheetEffect.getHeaders (if headerRow = 0 then 1 else headerRow),
       SheetEffect.clearValues sheetName (ColumnToLetter j)
         (if headerRow = 0 then 1 else headerRow)] := by
    simp only [removeFieldGo, hj]
  have herr : (removeFieldGo headers headerRow sheetName fieldName).2 = none := by
    simp only [removeFieldGo, hj]
  have happ : applyEffects g (removeFieldGo headers headerRow sheetName fieldName).1 =
      setCell g ((if headerRow = 0 then 1 else headerRow) - 1) j none := by
    rw [htr]
    simp only [applyEffects, List.foldl_cons, List.foldl_nil, applyEffect]
    rw [colLetter_toNat]
  refine ⟨htr, herr, ?_, ?_, ?_⟩
  · rw [happ]
    exact getCell_setCell_self g _ j
  · intro r c hrc
    rw [happ]
    exact getCell_setCell_ne g _ j r c none hrc
  · intro headers' headerRow' sheetName' fieldName' e he
    have hcases : e = SheetEffect.getHeaders (if headerRow' = 0 then 1 else headerRow') ∨
        ∃ j', e = SheetEffect.clearValues sheetName' (ColumnToLetter j')
          (if headerRow' = 0 then 1 else headerRow') := by
      unfold removeFieldGo at he
      cases hfi : headers'.findIdx? (fun h => h == fieldName') with
      | none =>
        rw [hfi] at he
        simp only [List.mem_singleton] at he
        exact Or.inl he
      | some j' =>
        rw [hfi] at he
        simp only [List.mem_cons, List.mem_singleton] at he
        rcases he with he | he | he
        · exact Or.inl he
        · exact Or.inr ⟨j', he⟩
        · cases he
    rcases hcases with he | ⟨j', he⟩ <;> subst he <;>
      refine ⟨fun i h => ?_, fun i h => ?_, fun s l r v h => ?_⟩ <;> cases h

/-- Witness for C7 at a concrete header list and grid. -/
theorem c7_remove_clears_header_only_witness :
    (removeFieldGo ["id", "x"] 1 "S" "x").1 =
      [SheetEffect.getHeaders (if (1 : Nat) = 0 then 1 else 1),
       SheetEffect.clearValues "S" (ColumnToLetter 1) (if (1 : Nat) = 0 then 1 else 1)] ∧
    (removeFieldGo ["id", "x"] 1 "S" "x").2 = none ∧
    getCell (applyEffects [[some "id", some "x"], [some "1", some "2"]]
      (removeFieldGo ["id", "x"] 1 "S" "x").1) ((if (1 : Nat) = 0 then 1 else 1) - 1) 1 = none ∧
    (∀ r c : Nat, ¬(r = (if (1 : Nat) = 0 then 1 else 1) - 1 ∧ c = 1) →
      getCell (applyEffects [[some "id", some "x"], [some "1", some "2"]]
        (removeFieldGo ["id", "x"] 1 "S" "x").1) r c =
        getCell [[some "id", some "x"], [some "1", some "2"]] r c) ∧
    (∀ (headers' : List String) (headerRow' : Nat) (sheetName' fieldName' : String),
      ∀ e ∈ (removeFieldGo headers' headerRow' sheetName' fieldName').1,
        (∀ i, e ≠ SheetEffect.deleteColumn i) ∧
        (∀ i, e ≠ SheetEffect.insertColumn i) ∧
        (∀ s l r v, e ≠ SheetEffect.updateValues s l r v)) :=
  c7_remove_clears_header_only ["id", "x"] 1 "S" "x"
    [[some "id", some "x"], [some "1", some "2"]] 1 (by decide)

/-! ## Lemmas about the planner -/

theorem analyzeSheet_mem {headers : List String}
    {getData : Nat → Except String (List (Option String))} {f : FieldInfo}
    (h : f ∈ analyzeSheet headers getData) : f.format = "" ∧ f.hidden = false := by
  unfold analyzeSheet at h
  obtain ⟨p, _, hp⟩ := List.mem_filterMap.mp h
  by_cases he : p.2 = ""
  · rw [if_pos he] at hp
    cases hp
  · rw [if_neg he] at hp
    injection hp with hp
    rw [← hp]
    exact ⟨rfl, rfl⟩

theorem modifyEntry_isSome_of_ne {cf sf : FieldInfo}
    (h : cf.format ≠ sf.format ∨ cf.hidden ≠ sf.hidden) :
    ∃ d, modifyEntry cf sf = some d ∧ d.name = sf.name := by
  simp only [modifyEntry]
  split
  · exact ⟨_, rfl, rfl⟩
  · rename_i hcond
    rw [Bool.or_eq_true, Bool.or_eq_true] at hcond
    push_neg at hcond
    obtain ⟨⟨-, hfmt⟩, hhid⟩ := hcond
    simp only [ne_eq, bne_iff_ne, not_not] at hfmt hhid
    rcases h with h | h
    · exact absurd hfmt h
    · exact absurd hhid h

/-- C9: every field produced by `analyzeSheet` has an empty format and a
false hidden flag; hence a schema field that is present in the sheet but
declares a non-empty format or `hidden = true` is emitted as a Modify
entry by `CompareFields` on every run, even when the types agree — such a
plan never reaches "no changes". -/
theorem c9_analyze_never_converges
    (headers : List String) (getData : Nat → Except String (List (Option String)))
    (sch : List FieldInfo) (sf : FieldInfo)
    (hsf : sf ∈ sch)
    (hmods : sf.format ≠ "" ∨ sf.hidden = true)
    (hpresent : sf.name ∈ (analyzeSheet headers getData).map (·.name)) :
    (∀ f ∈ analyzeSheet headers getData, f.format = "" ∧ f.hidden = false) ∧
    (∃ d ∈ (CompareFields (analyzeSheet headers getData) sch).fieldsToModify,
      d.name = sf.name) ∧
    (CompareFields (analyzeSheet headers getData) sch).fieldsToModify ≠ [] := by
  refine ⟨fun f hf => analyzeSheet_mem hf, ?_, ?_⟩
  · have hsome : (mapLookup (analyzeSheet headers getData) sf.name).isSome :=
      (mapLookup_isSome_iff _ _).mpr hpresent
    obtain ⟨cf, hcf⟩ := Option.isSome_iff_exists.mp hsome
    obtain ⟨hcfmem, -⟩ := mapLookup_mem hcf
    obtain ⟨hcffmt, hcfhid⟩ := analyzeSheet_mem hcfmem
    have hne : cf.format ≠ sf.format ∨ cf.hidden ≠ sf.hidden := by
      rcases hmods with h | h
      · exact Or.inl (by rw [hcffmt]; exact fun he => h he.symm)
      · exact Or.inr (by rw [hcfhid, h]; exact Bool.false_ne_true)
    obtain ⟨d, hme, hdn⟩ := modifyEntry_isSome_of_ne hne
    exact ⟨d, mem_fieldsToModify.mpr ⟨sf, hsf, cf, hcf, hme⟩, hdn⟩
  · intro hnil
    have hsome : (mapLookup (analyzeSheet headers getData) sf.name).isSome :=
      (mapLookup_isSome_iff _ _).mpr hpresent
    obtain ⟨cf, hcf⟩ := Option.isSome_iff_exists.mp hsome
    obtain ⟨hcfmem, -⟩ := mapLookup_mem hcf
    obtain ⟨hcffmt, hcfhid⟩ := analyzeSheet_mem hcfmem
    have hne : cf.format ≠ sf.format ∨ cf.hidden ≠ sf.hidden := by
      rcases hmods with h | h
      · exact Or.inl (by rw [hcffmt]; exact fun he => h he.symm)
      · exact Or.inr (by rw [hcfhid, h]; exact Bool.false_ne_true)
    obtain ⟨d, hme, -⟩ := modifyEntry_isSome_of_ne hne
    have : d ∈ (CompareFields (analyzeSheet headers getData) sch).fieldsToModify :=
      mem_fieldsToModify.mpr ⟨sf, hsf, cf, hcf, hme⟩
    rw [hnil] at this
    cases this

/-- Witness for C9 at a concrete sheet and schema. -/
theorem c9_analyze_never_converges_witness :
    (∀ f ∈ analyzeSheet ["id"] (fun _ => Except.ok [some "7"]),
      f.format = "" ∧ f.hidden = false) ∧
    (∃ d ∈ (CompareFields (analyzeSheet ["id"] (fun _ => Except.ok [some "7"]))
        [{ name := "id", type := "integer", format := "0" }]).fieldsToModify,
      d.name = "id") ∧
    (CompareFields (analyzeSheet ["id"] (fun _ => Except.ok [some "7"]))
        [{ name := "id", type := "integer", format := "0" }]).fieldsToModify ≠ [] := by
  have h := c9_analyze_never_converges ["id"] (fun _ => Except.ok [some "7"])
    [{ name := "id", type := "integer", format := "0" }]
    { name := "id", type := "integer", format := "0" }
    (by decide) (Or.inl (by decide)) (by decide)
  exact h

/-! ## Lemmas about `isNumeric` -/

theorem count_cons_dot (cs : List Char) : ('.' :: cs).count '.' = cs.count '.' + 1 := by
  simp [List.count_cons]

theorem count_cons_ne_dot {c : Char} (cs : List Char) (h : c ≠ '.') :
    (c :: cs).count '.' = cs.count '.' := by
  simp [List.count_cons, beq_iff_eq, h]

theorem numLoop_false_iff : ∀ (cs : List Char) (dots : Nat), dots ≤ 1 →
    (numLoop false dots cs = true ↔
      (∀ c ∈ cs, c.isDigit ∨ c = '.') ∧ dots + cs.count '.' ≤ 1) := by
  intro cs
  induction cs with
  | nil =>
    intro dots hd
    simp [numLoop]
    omega
  | cons c cs ih =>
    intro dots hd
    by_cases hdot : c = '.'
    · subst hdot
      have hstep : numLoop false dots ('.' :: cs) =
          if dots + 1 > 1 then false else numLoop false (dots + 1) cs := by
        simp [numLoop]
      rw [hstep]
      by_cases h1 : dots + 1 > 1
      · rw [if_pos h1]
        simp only [Bool.false_eq_true, false_iff]
        rintro ⟨-, hcount⟩
        rw [count_cons_dot] at hcount
        omega
      · rw [if_neg h1]
        have hdots0 : dots = 0 := by omega
        subst hdots0
        rw [ih 1 (by omega)]
        rw [count_cons_dot]
        constructor
        · rintro ⟨hall, hcount⟩
          refine ⟨?_, by omega⟩
          intro x hx
          rcases List.mem_cons.mp hx with rfl | hx
          · exact Or.inr rfl
          · exact hall x hx
        · rintro ⟨hall, hcount⟩
          exact ⟨fun x hx => hall x (List.mem_cons_of_mem _ hx), by omega⟩
    · by_cases hdig : c.isDigit
      · have hne1 : c ≠ '-' := fun he => by
          subst he
          exact (by decide : ¬ (('-' : Char).isDigit = true)) hdig
        have hne2 : c ≠ '+' := fun he => by
          subst he
          exact (by decide : ¬ (('+' : Char).isDigit = true)) hdig
        have hstep : numLoop false dots (c :: cs) = numLoop false dots cs := by
          simp [numLoop, hdot, hdig, hne1, hne2]
        rw [hstep, ih dots hd, count_cons_ne_dot cs hdot]
        constructor
        · rintro ⟨hall, hc⟩
          refine ⟨?_, hc⟩
          intro x hx
          rcases List.mem_cons.mp hx with rfl | hx
          · exact Or.inl hdig
          · exact hall x hx
        · rintro ⟨hall, hc⟩
          exact ⟨fun x hx => hall x (List.mem_cons_of_mem _ hx), hc⟩
      · have hstep : numLoop false dots (c :: cs) = false := by
          by_cases hsign : c = '-' ∨ c = '+'
          · rcases hsign with rfl | rfl <;> simp [numLoop]
          · push_neg at hsign
            simp [numLoop, hdot, hdig, hsign.1, hsign.2]
        rw [hstep]
        simp only [Bool.false_eq_true, false_iff]
        rintro ⟨hall, -⟩
        rcases hall c (List.mem_cons_self _ _) with h | h
        · exact hdig h
        · exact hdot h

theorem numLoop_true_cons_iff (c : Char) (cs : List Char) (dots : Nat)
    (hd : dots ≤ 1) :
    numLoop true dots (c :: cs) = true ↔
      ((c.isDigit ∨ c = '.' ∨ c = '-' ∨ c = '+') ∧
       (∀ x ∈ cs, x.isDigit ∨ x = '.') ∧ dots + (c :: cs).count '.' ≤ 1) := by
  by_cases hdot : c = '.'
  · subst hdot
    have hstep : numLoop true dots ('.' :: cs) =
        if dots + 1 > 1 then false else numLoop false (dots + 1) cs := by
      simp [numLoop]
    rw [hstep, count_cons_dot]
    by_cases h1 : dots + 1 > 1
    · rw [if_pos h1]
      simp only [Bool.false_eq_true, false_iff]
      rintro ⟨-, -, hcount⟩
      omega
    · rw [if_neg h1]
      have hdots0 : dots = 0 := by omega
      subst hdots0
      rw [numLoop_false_iff cs 1 (by omega)]
      constructor
      · rintro ⟨hall, hcount⟩
        exact ⟨Or.inr (Or.inl rfl), hall, by omega⟩
      · rintro ⟨-, hall, hcount⟩
        exact ⟨hall, by omega⟩
  · by_cases hdig : c.isDigit
    · have hstep : numLoop true dots (c :: cs) = numLoop false dots cs := by
        simp [numLoop, hdot, hdig]
      rw [hstep, numLoop_false_iff cs dots hd, count_cons_ne_dot cs hdot]
      constructor
      · rintro ⟨hall, hc⟩
        exact ⟨Or.inl hdig, hall, hc⟩
      · rintro ⟨-, hall, hc⟩
        exact ⟨hall, hc⟩
    · by_cases hsign : c = '-' ∨ c = '+'
      · have hstep : numLoop true dots (c :: cs) = numLoop false dots cs := by
          rcases hsign with rfl | rfl <;> simp [numLoop]
        have hcnt : (c :: cs).count '.' = cs.count '.' := count_cons_ne_dot cs hdot
        rw [hstep, numLoop_false_iff cs dots hd, hcnt]
        constructor
        · rintro ⟨hall, hc⟩
          refine ⟨?_, hall, hc⟩
          rcases hsign with rfl | rfl
          · exact Or.inr (Or.inr (Or.inl rfl))
          · exact Or.inr (Or.inr (Or.inr rfl))
        · rintro ⟨-, hall, hc⟩
          exact ⟨hall, hc⟩
      · have hstep : numLoop true dots (c :: cs) = false := by
          push_neg at hsign
          simp [numLoop, hdot, hdig, hsign.1, hsign.2]
        rw [hstep]
        simp only [Bool.false_eq_true, false_iff]
        rintro ⟨hhead, -, -⟩
        rcases hhead with h | h | h | h
        · exact hdig h
        · exact hdot h
        · exact hsign (Or.inl h)
        · exact hsign (Or.inr h)

/-- Structural characterization of `isNumeric`, shared by several
developments below. -/
theorem isNumeric_structure (s : String) :
    isNumeric s = true ↔
      (s ≠ "" ∧
        (stripCommas s.toList = [] ∨
         ∃ c cs, stripCommas s.toList = c :: cs ∧
           (c.isDigit ∨ c = '.' ∨ c = '-' ∨ c = '+') ∧
           (∀ x ∈ cs, x.isDigit ∨ x = '.') ∧
           (c :: cs).count '.' ≤ 1)) := by
  unfold isNumeric
  by_cases hse : s = ""
  · rw [if_pos hse]
    simp [hse]
  · rw [if_neg hse]
    cases hstrip : stripCommas s.toList with
    | nil =>
      simp [numLoop, hse]
    | cons c cs =>
      rw [numLoop_true_cons_iff c cs 0 (by omega)]
      constructor
      · rintro ⟨hhead, hall, hcount⟩
        exact ⟨hse, Or.inr ⟨c, cs, rfl, hhead, hall, by omega⟩⟩
      · rintro ⟨-, hnil | ⟨c', cs', heq, hhead, hall, hcount⟩⟩
        · exact (List.cons_ne_nil c cs hnil).elim
        · injection heq with h1 h2
          subst h1
          subst h2
          exact ⟨hhead, hall, by omega⟩

/-- C8 (amended): `isNumeric` accepts exactly the non-empty strings whose
comma-stripped form is empty, or consists of a leading character that is a
digit, dot or sign followed by digits and dots only, with at most one dot
in total. In particular a string with no digits at all — a lone sign, a
lone dot, or a lone comma (which strips to the empty list) — is accepted. -/
theorem c8_isNumeric_characterization (s : String) :
    isNumeric s = true ↔
      (s ≠ "" ∧
        (stripCommas s.toList = [] ∨
         ∃ c cs, stripCommas s.toList = c :: cs ∧
           (c.isDigit ∨ c = '.' ∨ c = '-' ∨ c = '+') ∧
           (∀ x ∈ cs, x.isDigit ∨ x = '.') ∧
           (c :: cs).count '.' ≤ 1)) :=
  isNumeric_structure s

/-- C8 counterexample: a lone dot, a lone sign and a lone comma contain no
digit, yet `isNumeric` marks each of them numeric — the digit-free case is
not rejected. -/
theorem c8_no_digit_counterexample :
    (("." : String).toList.any Char.isDigit = false ∧ isNumeric "." = true) ∧
    (("+" : String).toList.any Char.isDigit = false ∧ isNumeric "+" = true) ∧
    ((("," : String).toList.any Char.isDigit = false) ∧ isNumeric "," = true) := by
  decide

/-- Witness for C8 applying the characterization at a concrete numeric
string. -/
theorem c8_isNumeric_characterization_witness : isNumeric "-3.14" = true :=
  (c8_isNumeric_characterization "-3.14").mpr
    ⟨by decide, Or.inr ⟨'-', ['3', '.', '1', '4'], by decide, by decide,
      by decide, by decide⟩⟩

/-- C5 (code bug): after the schema-order pass, the Go code emits the
remaining per-field changes by ranging over the `changesByField` map,
whose iteration order the language leaves unspecified. On a diff with two
pending removals whose names are not in the canonical order, the remaining
key set is `{old1, old2}`, and the two possible visiting orders of exactly
those keys produce different change sequences — the output is not
independent of map iteration order, so two runs need not agree. -/
theorem c5_leftover_order_dependence :
    ((emitInOrder [{ name := "id", type := "integer", position := 0 }]
        (changesByField (CompareFields
          [{ name := "id", type := "integer" },
           { name := "old1", type := "string" },
           { name := "old2", type := "string" }]
          [{ name := "id", type := "integer", position := 0 }]) "S")).2.map Prod.fst =
      ["old1", "old2"]) ∧
    (["old1", "old2"] : List String).Perm ["old2", "old1"] ∧
    (ConvertDiffToResultWithOrder (CompareFields
        [{ name := "id", type := "integer" },
         { name := "old1", type := "string" },
         { name := "old2", type := "string" }]
        [{ name := "id", type := "integer", position := 0 }]) "S"
      [{ name := "id", type := "integer", position := 0 }]
      ["old1", "old2"]).changes ≠
    (ConvertDiffToResultWithOrder (CompareFields
        [{ name := "id", type := "integer" },
         { name := "old1", type := "string" },
         { name := "old2", type := "string" }]
        [{ name := "id", type := "integer", position := 0 }]) "S"
      [{ name := "id", type := "integer", position := 0 }]
      ["old2", "old1"]).changes := by
  refine ⟨by decide, by decide, by decide⟩

/-! ## Character-set facts about numeric strings -/

theorem isNumeric_tail_digit_dot {s : String} (h : isNumeric s = true) :
    ∀ x ∈ (stripCommas s.toList).tail, x.isDigit = true ∨ x = '.' := by
  rcases (isNumeric_structure s).mp h with ⟨-, hnil | ⟨c, cs, heq, -, hall, -⟩⟩
  · rw [hnil]
    intro x hx
    cases hx
  · rw [heq]
    exact hall

theorem isNumeric_charset {s : String} (h : isNumeric s = true) :
    ∀ c ∈ s.toList,
      c = ',' ∨ c.isDigit = true ∨ c = '.' ∨ c = '-' ∨ c = '+' := by
  intro c hc
  by_cases hcomma : c = ','
  · exact Or.inl hcomma
  · right
    have hcs : c ∈ stripCommas s.toList :=
      List.mem_filter.mpr ⟨hc, by simp [hcomma]⟩
    rcases (isNumeric_structure s).mp h with ⟨-, hnil | ⟨c', cs', heq, hhead, hall, -⟩⟩
    · rw [hnil] at hcs
      cases hcs
    · rw [heq] at hcs
      rcases List.mem_cons.mp hcs with rfl | hcs
      · exact hhead
      · rcases hall c hcs with h | h
        · exact Or.inl h
        · exact Or.inr (Or.inl h)

theorem charset_bounds {c : Char}
    (h : c = ',' ∨ c.isDigit = true ∨ c = '.' ∨ c = '-' ∨ c = '+') :
    43 ≤ c.toNat ∧ c.toNat ≤ 57 := by
  rcases h with rfl | h | rfl | rfl | rfl
  · exact ⟨by decide, by decide⟩
  · simp only [Char.isDigit, Bool.and_eq_true, decide_eq_true_eq] at h
    obtain ⟨h1, h2⟩ := h
    have h1' : 48 ≤ c.toNat := h1
    have h2' : c.toNat ≤ 57 := h2
    exact ⟨by omega, h2'⟩
  · exact ⟨by decide, by decide⟩
  · exact ⟨by decide, by decide⟩
  · exact ⟨by decide, by decide⟩

theorem charset_not_space {c : Char} (h1 : 43 ≤ c.toNat) (h2 : c.toNat ≤ 57) :
    goIsSpace c = false := by
  have hne : ∀ x : Char, (x.toNat < 43 ∨ 57 < x.toNat) → (c == x) = false := by
    intro x hx
    apply beq_eq_false_iff_ne.mpr
    intro he
    subst he
    omega
  unfold goIsSpace
  rw [hne ' ' (by decide), hne '\t' (by decide), hne '\n' (by decide),
      hne '\x0b' (by decide), hne '\x0c' (by decide), hne '\r' (by decide),
      beq_eq_false_iff_ne.mpr (show c.toNat ≠ 0x85 by omega),
      beq_eq_false_iff_ne.mpr (show c.toNat ≠ 0xA0 by omega),
      beq_eq_false_iff_ne.mpr (show c.toNat ≠ 0x1680 by omega),
      beq_eq_false_iff_ne.mpr (show c.toNat ≠ 0x2028 by omega),
      beq_eq_false_iff_ne.mpr (show c.toNat ≠ 0x2029 by omega),
      beq_eq_false_iff_ne.mpr (show c.toNat ≠ 0x202F by omega),
      beq_eq_false_iff_ne.mpr (show c.toNat ≠ 0x205F by omega),
      beq_eq_false_iff_ne.mpr (show c.toNat ≠ 0x3000 by omega),
      decide_eq_false (show ¬ 0x2000 ≤ c.toNat by omega)]
  simp

theorem string_mk_toList (s : String) : String.mk s.toList = s := rfl

theorem goTrim_eq_self {s : String} (h : ∀ c ∈ s.toList, goIsSpace c = false) :
    goTrim s = s := by
  unfold goTrim
  have h1 : s.toList.dropWhile goIsSpace = s.toList := by
    cases hl : s.toList with
    | nil => rfl
    | cons a l =>
      rw [List.dropWhile_cons, if_neg]
      rw [h a (by rw [hl]; exact List.mem_cons_self _ _)]
      simp
  rw [h1]
  have h2 : s.toList.reverse.dropWhile goIsSpace = s.toList.reverse := by
    cases hl : s.toList.reverse with
    | nil => rfl
    | cons a l =>
      rw [List.dropWhile_cons, if_neg]
      have ha : a ∈ s.toList := by
        rw [← List.mem_reverse, hl]
        exact List.mem_cons_self _ _
      rw [h a ha]
      simp
  rw [h2, List.reverse_reverse, string_mk_toList]

theorem lowerChar_eq_self {c : Char} (h : c.toNat ≤ 57) : lowerChar c = c := by
  unfold lowerChar
  rw [if_neg]
  intro hcon
  simp only [Bool.and_eq_true, decide_eq_true_eq] at hcon
  have h65 : 65 ≤ c.toNat := hcon.1
  omega

theorem goToLower_eq_self {s : String} (h : ∀ c ∈ s.toList, c.toNat ≤ 57) :
    goToLower s = s := by
  unfold goToLower
  have hmap : ∀ l : List Char, (∀ c ∈ l, c.toNat ≤ 57) → l.map lowerChar = l := by
    intro l hl
    induction l with
    | nil => rfl
    | cons a l ih =>
      rw [List.map_cons, lowerChar_eq_self (hl a (List.mem_cons_self _ _)),
          ih (fun c hc => hl c (List.mem_cons_of_mem _ hc))]
  rw [hmap s.toList h, string_mk_toList]

theorem isNumeric_goTrim {s : String} (h : isNumeric s = true) : goTrim s = s := by
  apply goTrim_eq_self
  intro c hc
  have hb := charset_bounds (isNumeric_charset h c hc)
  exact charset_not_space hb.1 hb.2

/-! ## No numeric string is a datetime -/

theorem reConsume_decomp (cls : Char → Bool) :
    ∀ (n : Nat) (cs rest : List Char), reConsume cls n cs = some rest →
      ∃ pre, cs = pre ++ rest ∧ pre.length = n ∧ ∀ c ∈ pre, cls c = true := by
  intro n
  induction n with
  | zero =>
    intro cs rest h
    injection h with h
    exact ⟨[], by simp [h], rfl, by simp⟩
  | succ n ih =>
    intro cs rest h
    cases cs with
    | nil => cases h
    | cons c cs' =>
      simp only [reConsume] at h
      by_cases hc : cls c = true
      · rw [if_pos hc] at h
        obtain ⟨pre, hpre, hlen, hall⟩ := ih cs' rest h
        refine ⟨c :: pre, by simp [hpre], by simp [hlen], ?_⟩
        intro x hx
        rcases List.mem_cons.mp hx with rfl | hx
        · exact hc
        · exact hall x hx
      · rw [if_neg hc] at h
        cases h

theorem reMatch_cons_decomp {anch : Bool} {a : ReAtom} {atoms : List ReAtom}
    {cs : List Char} (h : reMatch anch (a :: atoms) cs = true) :
    ∃ n, a.lo ≤ n ∧ n < a.lo + (a.hi + 1 - a.lo) ∧
      ∃ rest, reConsume a.cls n cs = some rest ∧ reMatch anch atoms rest = true := by
  simp only [reMatch] at h
  rw [List.any_eq_true] at h
  obtain ⟨n, hn, hmatch⟩ := h
  obtain ⟨hn1, hn2⟩ := List.mem_range'_1.mp hn
  cases hcons : reConsume a.cls n cs with
  | none =>
    rw [hcons] at hmatch
    cases hmatch
  | some rest =>
    rw [hcons] at hmatch
    exact ⟨n, hn1, hn2, rest, hcons, hmatch⟩

theorem reMatch_head_digits_lit {anch : Bool} {lo hi : Nat} {x : Char}
    {rest : List ReAtom} {cs : List Char} (hlo : 1 ≤ lo)
    (h : reMatch anch (dAt lo hi :: cAt x :: rest) cs = true) :
    ∃ pre suf, cs = pre ++ x :: suf ∧ pre ≠ [] ∧ ∀ c ∈ pre, c.isDigit = true := by
  obtain ⟨n, hn1, -, rest1, hcons, h2⟩ := reMatch_cons_decomp h
  obtain ⟨pre, hpre, hlen, hall⟩ := reConsume_decomp _ n cs rest1 hcons
  obtain ⟨m, hm1, hm2, rest2, hcons2, -⟩ := reMatch_cons_decomp h2
  have hm : m = 1 := by
    have e1 : (cAt x).lo = 1 := rfl
    have e2 : (cAt x).hi = 1 := rfl
    rw [e1] at hm1 hm2
    rw [e2] at hm2
    omega
  subst hm
  obtain ⟨pre2, hpre2, hlen2, hall2⟩ := reConsume_decomp _ 1 rest1 rest2 hcons2
  have hx : ∃ c, pre2 = [c] ∧ (c == x) = true := by
    cases pre2 with
    | nil => cases hlen2
    | cons c l =>
      cases l with
      | nil => exact ⟨c, rfl, hall2 c (List.mem_cons_self _ _)⟩
      | cons d l' => simp at hlen2
  obtain ⟨c, hc, hcx⟩ := hx
  have hcx' : c = x := beq_iff_eq.mp hcx
  refine ⟨pre, rest2, ?_, ?_, hall⟩
  · rw [hpre, hpre2, hc, hcx']
    rfl
  · intro hnil
    rw [hnil] at hlen
    have e3 : (dAt lo hi).lo = lo := rfl
    rw [e3] at hn1
    simp at hlen
    omega

theorem strip_ne_nil_of_no_comma {pre : List Char} (hne : pre ≠ [])
    (hall : ∀ c ∈ pre, c ≠ ',') : stripCommas pre ≠ [] := by
  cases pre with
  | nil => exact absurd rfl hne
  | cons a l =>
    unfold stripCommas
    rw [List.filter_cons, if_pos]
    · simp
    · simp [hall a (List.mem_cons_self _ _)]

theorem isNumeric_no_dash_split {s : String} (h : isNumeric s = true)
    (pre suf : List Char) (hpre : stripCommas pre ≠ [])
    (heq : s.toList = pre ++ '-' :: suf) : False := by
  have hstrip : stripCommas s.toList =
      stripCommas pre ++ '-' :: stripCommas suf := by
    rw [heq]
    unfold stripCommas
    rw [List.filter_append, List.filter_cons]
    simp
  cases hsp : stripCommas pre with
  | nil => exact hpre hsp
  | cons q qs =>
    have hdash : '-' ∈ (stripCommas s.toList).tail := by
      rw [hstrip, hsp]
      simp
    rcases isNumeric_tail_digit_dot h '-' hdash with hd | hd
    · exact (by decide : ¬ (('-' : Char).isDigit = true)) hd
    · exact absurd hd (by decide)

theorem isNumeric_digit_dash_split {s : String} (h : isNumeric s = true)
    (pre suf : List Char) (hne : pre ≠ [])
    (hall : ∀ c ∈ pre, c.isDigit = true)
    (heq : s.toList = pre ++ '-' :: suf) : False := by
  refine isNumeric_no_dash_split h pre suf ?_ heq
  refine strip_ne_nil_of_no_comma hne ?_
  intro c hc he
  subst he
  exact (by decide : ¬ ((',' : Char).isDigit = true)) (hall ',' hc)

theorem isNumeric_char_free {s : String} (h : isNumeric s = true) {x : Char}
    (hx : ¬(x = ',' ∨ x.isDigit = true ∨ x = '.' ∨ x = '-' ∨ x = '+')) :
    x ∉ s.toList :=
  fun hm => hx (isNumeric_charset h x hm)

theorem digit_ne_comma {c : Char} (h : c.isDigit = true) : c ≠ ',' :=
  fun he => by
    subst he
    exact (by decide : ¬ ((',' : Char).isDigit = true)) h

theorem optBind_isSome {α β : Type} {x : Option α} {f : α → Option β}
    (h : (x >>= f).isSome = true) : ∃ a, x = some a ∧ (f a).isSome = true := by
  cases x with
  | none => simp at h
  | some a => exact ⟨a, rfl, by simpa using h⟩

theorem rdLit_decomp {x : Char} {cs rest : List Char}
    (h : rdLit x cs = some rest) : cs = x :: rest := by
  cases cs with
  | nil => cases h
  | cons c cs' =>
    simp only [rdLit] at h
    by_cases hc : c = x
    · rw [if_pos hc] at h
      injection h with h
      rw [hc, h]
    · rw [if_neg hc] at h
      cases h

theorem rdN_decomp : ∀ (n : Nat) (cs : List Char) (v : Nat) (rest : List Char),
    rdN n cs = some (v, rest) →
    ∃ pre, cs = pre ++ rest ∧ pre.length = n ∧ ∀ c ∈ pre, c.isDigit = true := by
  intro n
  induction n with
  | zero =>
    intro cs v rest h
    injection h with h
    injection h with h1 h2
    exact ⟨[], by simp [h2], rfl, by simp⟩
  | succ n ih =>
    intro cs v rest h
    cases cs with
    | nil => cases h
    | cons c cs' =>
      simp only [rdN] at h
      by_cases hc : c.isDigit = true
      · rw [if_pos hc] at h
        cases hr : rdN n cs' with
        | none =>
          rw [hr] at h
          cases h
        | some p =>
          obtain ⟨v', rest'⟩ := p
          rw [hr] at h
          injection h with h
          injection h with h1 h2
          obtain ⟨pre, hpre, hlen, hall⟩ := ih cs' v' rest' hr
          rw [h2] at hpre
          refine ⟨c :: pre, by simp [hpre], by simp [hlen], ?_⟩
          intro x hx
          rcases List.mem_cons.mp hx with rfl | hx
          · exact hc
          · exact hall x hx
      · rw [if_neg hc] at h
        cases h

theorem rd12_decomp {cs : List Char} {v : Nat} {rest : List Char}
    (h : rd12 cs = some (v, rest)) :
    ∃ pre, cs = pre ++ rest ∧ pre ≠ [] ∧ ∀ c ∈ pre, c.isDigit = true := by
  cases cs with
  | nil => cases h
  | cons c cs' =>
    simp only [rd12] at h
    by_cases hc : c.isDigit = true
    · rw [if_pos hc] at h
      cases cs' with
      | nil =>
        injection h with h
        injection h with h1 h2
        refine ⟨[c], by simp [h2], by simp, ?_⟩
        intro x hx
        rcases List.mem_cons.mp hx with rfl | hx
        · exact hc
        · cases hx
      | cons c2 cs2 =>
        dsimp only at h
        by_cases hc2 : c2.isDigit = true
        · rw [if_pos hc2] at h
          injection h with h
          injection h with h1 h2
          refine ⟨[c, c2], by simp [h2], by simp, ?_⟩
          intro x hx
          rcases List.mem_cons.mp hx with rfl | hx
          · exact hc
          rcases List.mem_cons.mp hx with rfl | hx
          · exact hc2
          · cases hx
        · rw [if_neg hc2] at h
          injection h with h
          injection h with h1 h2
          refine ⟨[c], by simp [h2], by simp, ?_⟩
          intro x hx
          rcases List.mem_cons.mp hx with rfl | hx
          · exact hc
          · cases hx
    · rw [if_neg hc] at h
      cases h

theorem rdYear4_decomp {cs : List Char} {y : Int} {rest : List Char}
    (h : rdYear4 cs = some (y, rest)) :
    ∃ pre, cs = pre ++ rest ∧ pre ≠ [] ∧ ∀ c ∈ pre, c ≠ ',' := by
  cases cs with
  | nil => cases h
  | cons c1 t1 =>
  cases t1 with
  | nil => cases h
  | cons c2 t2 =>
  cases t2 with
  | nil => cases h
  | cons c3 t3 =>
  cases t3 with
  | nil => cases h
  | cons c4 rest' =>
  simp only [rdYear4] at h
  by_cases h1 : ((c1 == '+' || c1 == '-') && c2.isDigit && c3.isDigit && c4.isDigit) = true
  · rw [if_pos h1] at h
    injection h with h
    injection h with hy h2
    simp only [Bool.and_eq_true, Bool.or_eq_true, beq_iff_eq] at h1
    obtain ⟨⟨⟨hs, hd2⟩, hd3⟩, hd4⟩ := h1
    refine ⟨[c1, c2, c3, c4], by simp [h2], by simp, ?_⟩
    intro x hx
    rcases List.mem_cons.mp hx with rfl | hx
    · rcases hs with rfl | rfl
      · decide
      · decide
    rcases List.mem_cons.mp hx with rfl | hx
    · exact digit_ne_comma hd2
    rcases List.mem_cons.mp hx with rfl | hx
    · exact digit_ne_comma hd3
    rcases List.mem_cons.mp hx with rfl | hx
    · exact digit_ne_comma hd4
    · cases hx
  · rw [if_neg h1] at h
    by_cases h2 : (c1.isDigit && c2.isDigit && c3.isDigit && c4.isDigit) = true
    · rw [if_pos h2] at h
      injection h with h
      injection h with hy hr
      simp only [Bool.and_eq_true] at h2
      obtain ⟨⟨⟨hd1, hd2⟩, hd3⟩, hd4⟩ := h2
      refine ⟨[c1, c2, c3, c4], by simp [hr], by simp, ?_⟩
      intro x hx
      rcases List.mem_cons.mp hx with rfl | hx
      · exact digit_ne_comma hd1
      rcases List.mem_cons.mp hx with rfl | hx
      · exact digit_ne_comma hd2
      rcases List.mem_cons.mp hx with rfl | hx
      · exact digit_ne_comma hd3
      rcases List.mem_cons.mp hx with rfl | hx
      · exact digit_ne_comma hd4
      · cases hx
    · rw [if_neg h2] at h
      cases h

theorem goParseRFC3339_split {cs : List Char} (h : goParseRFC3339 cs = true) :
    ∃ pre suf, cs = pre ++ '-' :: suf ∧ stripCommas pre ≠ [] := by
  unfold goParseRFC3339 at h
  obtain ⟨p, h1, h⟩ := optBind_isSome h
  obtain ⟨y, cs1⟩ := p
  obtain ⟨cs2, h2, -⟩ := optBind_isSome h
  obtain ⟨pre, hpre, hprene, hnc⟩ := rdYear4_decomp h1
  have hcs1 := rdLit_decomp h2
  exact ⟨pre, cs2, by rw [hpre, hcs1], strip_ne_nil_of_no_comma hprene hnc⟩

theorem goParseYMDDash_split {cs : List Char} (h : goParseYMDDash cs = true) :
    ∃ pre suf, cs = pre ++ '-' :: suf ∧ stripCommas pre ≠ [] := by
  unfold goParseYMDDash at h
  obtain ⟨p, h1, h⟩ := optBind_isSome h
  obtain ⟨y, cs1⟩ := p
  obtain ⟨cs2, h2, -⟩ := optBind_isSome h
  obtain ⟨pre, hpre, hprene, hnc⟩ := rdYear4_decomp h1
  have hcs1 := rdLit_decomp h2
  exact ⟨pre, cs2, by rw [hpre, hcs1], strip_ne_nil_of_no_comma hprene hnc⟩

theorem goParseYMDDashTime_split {cs : List Char}
    (h : goParseYMDDashTime cs = true) :
    ∃ pre suf, cs = pre ++ '-' :: suf ∧ stripCommas pre ≠ [] := by
  unfold goParseYMDDashTime at h
  obtain ⟨p, h1, h⟩ := optBind_isSome h
  obtain ⟨y, cs1⟩ := p
  obtain ⟨cs2, h2, -⟩ := optBind_isSome h
  obtain ⟨pre, hpre, hprene, hnc⟩ := rdYear4_decomp h1
  have hcs1 := rdLit_decomp h2
  exact ⟨pre, cs2, by rw [hpre, hcs1], strip_ne_nil_of_no_comma hprene hnc⟩

theorem goParseUSDash_split {cs : List Char} (h : goParseUSDash cs = true) :
    ∃ pre suf, cs = pre ++ '-' :: suf ∧ stripCommas pre ≠ [] := by
  unfold goParseUSDash at h
  obtain ⟨p, h1, h⟩ := optBind_isSome h
  obtain ⟨m, cs1⟩ := p
  obtain ⟨cs2, h2, -⟩ := optBind_isSome h
  obtain ⟨pre, hpre, hlen, hall⟩ := rdN_decomp 2 cs m cs1 h1
  have hcs1 := rdLit_decomp h2
  have hprene : pre ≠ [] := by
    intro hn
    rw [hn] at hlen
    cases hlen
  exact ⟨pre, cs2, by rw [hpre, hcs1],
    strip_ne_nil_of_no_comma hprene (fun c hc => digit_ne_comma (hall c hc))⟩

theorem goParseUSPadded_slash {cs : List Char} (h : goParseUSPadded cs = true) :
    '/' ∈ cs := by
  unfold goParseUSPadded at h
  obtain ⟨p, h1, h⟩ := optBind_isSome h
  obtain ⟨m, cs1⟩ := p
  obtain ⟨cs2, h2, -⟩ := optBind_isSome h
  obtain ⟨pre, hpre, -, -⟩ := rdN_decomp 2 cs m cs1 h1
  have hcs1 := rdLit_decomp h2
  rw [hpre, hcs1]
  exact List.mem_append_right _ (List.mem_cons_self _ _)

theorem goParseUSFlex_slash {cs : List Char} (h : goParseUSFlex cs = true) :
    '/' ∈ cs := by
  unfold goParseUSFlex at h
  obtain ⟨p, h1, h⟩ := optBind_isSome h
  obtain ⟨m, cs1⟩ := p
  obtain ⟨cs2, h2, -⟩ := optBind_isSome h
  obtain ⟨pre, hpre, -, -⟩ := rd12_decomp h1
  have hcs1 := rdLit_decomp h2
  rw [hpre, hcs1]
  exact List.mem_append_right _ (List.mem_cons_self _ _)

theorem goParseYMDSlash_slash {cs : List Char} (h : goParseYMDSlash cs = true) :
    '/' ∈ cs := by
  unfold goParseYMDSlash at h
  obtain ⟨p, h1, h⟩ := optBind_isSome h
  obtain ⟨y, cs1⟩ := p
  obtain ⟨cs2, h2, -⟩ := optBind_isSome h
  obtain ⟨pre, hpre, -, -⟩ := rdYear4_decomp h1
  have hcs1 := rdLit_decomp h2
  rw [hpre, hcs1]
  exact List.mem_append_right _ (List.mem_cons_self _ _)

theorem numeric_regex_dash {s : String} (h : isNumeric s = true) {anch : Bool}
    {lo hi : Nat} {rest : List ReAtom} (hlo : 1 ≤ lo)
    (hm : reMatch anch (dAt lo hi :: cAt '-' :: rest) s.toList = true) : False := by
  obtain ⟨pre, suf, heq, hne, hall⟩ := reMatch_head_digits_lit hlo hm
  exact isNumeric_digit_dash_split h pre suf hne hall heq

theorem numeric_regex_char {s : String} (h : isNumeric s = true) {anch : Bool}
    {lo hi : Nat} {x : Char} {rest : List ReAtom} (hlo : 1 ≤ lo)
    (hx : ¬(x = ',' ∨ x.isDigit = true ∨ x = '.' ∨ x = '-' ∨ x = '+'))
    (hm : reMatch anch (dAt lo hi :: cAt x :: rest) s.toList = true) : False := by
  obtain ⟨pre, suf, heq, -, -⟩ := reMatch_head_digits_lit hlo hm
  refine isNumeric_char_free h hx ?_
  rw [heq]
  exact List.mem_append_right _ (List.mem_cons_self _ _)

/-- A numeric sample value is never recognised as a datetime. -/
theorem isNumeric_not_isDateTime {s : String} (h : isNumeric s = true) :
    isDateTime s = false := by
  have hse : s ≠ "" := ((isNumeric_structure s).mp h).1
  rw [Bool.eq_false_iff]
  intro hdt
  unfold isDateTime at hdt
  rw [if_neg hse] at hdt
  simp only [Bool.or_eq_true, List.any_eq_true] at hdt
  rcases hdt with (((((((⟨p, hp, hmatch⟩ | hrfc) | hymd) | hymdt) | husp) | husf) | husd) | hsl)
  · simp only [dateTimeRegexes, List.mem_cons, List.mem_singleton] at hp
    rcases hp with rfl | rfl | rfl | rfl | rfl | rfl | rfl | hnil
    · exact numeric_regex_dash h (by omega) hmatch
    · exact numeric_regex_dash h (by omega) hmatch
    · exact numeric_regex_dash h (by omega) hmatch
    · exact numeric_regex_char h (by omega) (by decide) hmatch
    · exact numeric_regex_dash h (by omega) hmatch
    · exact numeric_regex_dash h (by omega) hmatch
    · exact numeric_regex_dash h (by omega) hmatch
    · exact absurd hnil (List.not_mem_nil p)
  · obtain ⟨pre, suf, heq, hpre⟩ := goParseRFC3339_split hrfc
    exact isNumeric_no_dash_split h pre suf hpre heq
  · obtain ⟨pre, suf, heq, hpre⟩ := goParseYMDDash_split hymd
    exact isNumeric_no_dash_split h pre suf hpre heq
  · obtain ⟨pre, suf, heq, hpre⟩ := goParseYMDDashTime_split hymdt
    exact isNumeric_no_dash_split h pre suf hpre heq
  · exact isNumeric_char_free h (by decide) (goParseUSPadded_slash husp)
  · exact isNumeric_char_free h (by decide) (goParseUSFlex_slash husf)
  · obtain ⟨pre, suf, heq, hpre⟩ := goParseUSDash_split husd
    exact isNumeric_no_dash_split h pre suf hpre heq
  · exact isNumeric_char_free h (by decide) (goParseYMDSlash_slash hsl)

/-! ## The classifier on numeric and poison samples -/

theorem isNumeric_not_bool {s : String} (h : isNumeric s = true) :
    goToLower s ≠ "true" ∧ goToLower s ≠ "false" := by
  have hlower : goToLower s = s := by
    apply goToLower_eq_self
    intro c hc
    exact (charset_bounds (isNumeric_charset h c hc)).2
  rw [hlower]
  constructor
  · intro he
    have ht : 't' ∈ s.toList := by
      rw [he]
      decide
    exact isNumeric_char_free h (by decide) ht
  · intro he
    have hf : 'f' ∈ s.toList := by
      rw [he]
      decide
    exact isNumeric_char_free h (by decide) hf

theorem digits_isNumeric {v : String} (hne : v ≠ "")
    (hall : ∀ c ∈ v.toList, c.isDigit = true) : isNumeric v = true := by
  rw [isNumeric_structure]
  refine ⟨hne, ?_⟩
  cases hstrip : stripCommas v.toList with
  | nil => exact Or.inl rfl
  | cons c cs =>
    have hsub : ∀ x ∈ c :: cs, x ∈ v.toList := by
      intro x hx
      have hx' : x ∈ stripCommas v.toList := by
        rw [hstrip]
        exact hx
      exact List.mem_of_mem_filter hx'
    refine Or.inr ⟨c, cs, rfl,
      Or.inl (hall c (hsub c (List.mem_cons_self _ _))),
      fun x hx => Or.inl (hall x (hsub x (List.mem_cons_of_mem _ hx))), ?_⟩
    have hnd : '.' ∉ c :: cs := by
      intro hdot
      exact (by decide : ¬ (('.' : Char).isDigit = true))
        (hall '.' (hsub '.' hdot))
    rw [List.count_eq_zero.mpr hnd]
    omega

theorem inferStep_numeric {fl : InferFlags} {v : String}
    (h : isNumeric v = true) :
    inferStep fl (some v) =
      { hasNumber := true, hasString := fl.hasString,
        hasBoolean := fl.hasBoolean, hasDateTime := fl.hasDateTime,
        allDateTime := false } := by
  have htrim := isNumeric_goTrim h
  have hb := isNumeric_not_bool h
  have hdt := isNumeric_not_isDateTime h
  simp [inferStep, htrim, hb.1, hb.2, hdt, h]

theorem inferStep_poison {fl : InferFlags} {v : String}
    (ht : goTrim v ≠ "")
    (hb1 : goToLower (goTrim v) ≠ "true")
    (hb2 : goToLower (goTrim v) ≠ "false")
    (hdt : isDateTime (goTrim v) = false)
    (hnum : isNumeric (goTrim v) = false) :
    inferStep fl (some v) =
      { hasNumber := fl.hasNumber, hasString := true,
        hasBoolean := fl.hasBoolean, hasDateTime := fl.hasDateTime,
        allDateTime := false } := by
  simp [inferStep, ht, hb1, hb2, hdt, hnum]

theorem inferStep_hasString_mono (fl : InferFlags) (x : Option String)
    (h : fl.hasString = true) : (inferStep fl x).hasString = true := by
  unfold inferStep
  cases x with
  | none => exact h
  | some v =>
    dsimp only
    split
    · exact h
    · split <;> split <;> (try split) <;> simp [h]

theorem inferStep_allDateTime_mono (fl : InferFlags) (x : Option String)
    (h : fl.allDateTime = false) : (inferStep fl x).allDateTime = false := by
  unfold inferStep
  cases x with
  | none => exact h
  | some v =>
    dsimp only
    split
    · rfl
    · split <;> split <;> (try split) <;> simp [h]

theorem foldl_hasString_allDateTime (data : List (Option String)) :
    ∀ fl : InferFlags, fl.hasString = true → fl.allDateTime = false →
      (data.foldl inferStep fl).hasString = true ∧
      (data.foldl inferStep fl).allDateTime = false := by
  induction data with
  | nil => exact fun fl h1 h2 => ⟨h1, h2⟩
  | cons x xs ih =>
    intro fl h1 h2
    rw [List.foldl_cons]
    exact ih (inferStep fl x)
      (inferStep_hasString_mono fl x h1)
      (inferStep_allDateTime_mono fl x h2)

theorem foldl_inferStep_numeric (data : List (Option String)) :
    ∀ fl : InferFlags,
      (∀ x ∈ data, ∃ v, x = some v ∧ isNumeric v = true) → data ≠ [] →
      data.foldl inferStep fl =
        { hasNumber := true, hasString := fl.hasString,
          hasBoolean := fl.hasBoolean, hasDateTime := fl.hasDateTime,
          allDateTime := false } := by
  induction data with
  | nil => exact fun fl _ hne => absurd rfl hne
  | cons x xs ih =>
    intro fl hall hne
    obtain ⟨v, hx, hv⟩ := hall x (List.mem_cons_self _ _)
    subst hx
    rw [List.foldl_cons, inferStep_numeric hv]
    by_cases hxs : xs = []
    · subst hxs
      rfl
    · rw [ih _ (fun y hy => hall y (List.mem_cons_of_mem _ hy)) hxs]

theorem hasDecimal_of_mem {data : List (Option String)} {v : String}
    (hm : some v ∈ data) (hdot : '.' ∈ v.toList) : hasDecimal data = true := by
  unfold hasDecimal
  rw [List.any_eq_true]
  refine ⟨some v, hm, ?_⟩
  dsimp only
  simpa using hdot

theorem hasDecimal_false_of_digits {data : List (Option String)}
    (hall : ∀ x ∈ data, ∃ v, x = some v ∧ ∀ c ∈ v.toList, c.isDigit = true) :
    hasDecimal data = false := by
  unfold hasDecimal
  rw [List.any_eq_false]
  intro x hx
  obtain ⟨v, rfl, hv⟩ := hall x hx
  dsimp only
  intro hcont
  exact (by decide : ¬ (('.' : Char).isDigit = true))
    (hv '.' (List.mem_of_elem_eq_true hcont))

/-- C3 (amended): over non-null samples, (a) a *non-empty* list whose
entries are all non-empty digit-only strings infers `integer`; (b) a list
whose entries are all numeric, at least one carrying a literal decimal
point, infers `number`; (c) any list containing one sample that trims to a
non-empty string which is neither a boolean literal, nor a datetime, nor
numeric infers `string`, regardless of all other samples. (The claim as
frozen fails on the empty list, which infers `string`, and on a
whitespace-only sample, which is skipped rather than treated as a string
signal — see the counterexample.) -/
theorem c3_infer_column_type (data : List (Option String)) :
    ((data ≠ [] ∧ ∀ x ∈ data, ∃ v, x = some v ∧ v ≠ "" ∧
        ∀ c ∈ v.toList, c.isDigit = true) →
      InferColumnType data = "integer") ∧
    (((∀ x ∈ data, ∃ v, x = some v ∧ isNumeric v = true) ∧
        ∃ v, some v ∈ data ∧ '.' ∈ v.toList) →
      InferColumnType data = "number") ∧
    ((∃ v, some v ∈ data ∧ goTrim v ≠ "" ∧
        goToLower (goTrim v) ≠ "true" ∧ goToLower (goTrim v) ≠ "false" ∧
        isDateTime (goTrim v) = false ∧ isNumeric (goTrim v) = false) →
      InferColumnType data = "string") := by
  refine ⟨?_, ?_, ?_⟩
  · rintro ⟨hne, hall⟩
    have hnum : ∀ x ∈ data, ∃ v, x = some v ∧ isNumeric v = true := by
      intro x hx
      obtain ⟨v, hxv, hvne, hdig⟩ := hall x hx
      exact ⟨v, hxv, digits_isNumeric hvne hdig⟩
    have hfold := foldl_inferStep_numeric data
      { hasNumber := false, hasString := false, hasBoolean := false,
        hasDateTime := false, allDateTime := true } hnum hne
    have hdec : hasDecimal data = false :=
      hasDecimal_false_of_digits (fun x hx => by
        obtain ⟨v, hxv, -, hdig⟩ := hall x hx
        exact ⟨v, hxv, hdig⟩)
    unfold InferColumnType
    rw [if_neg (fun h0 => hne (List.length_eq_zero.mp h0))]
    rw [hfold, hdec]
    simp
  · rintro ⟨hnum, v, hm, hdot⟩
    have hne : data ≠ [] := List.ne_nil_of_mem hm
    have hfold := foldl_inferStep_numeric data
      { hasNumber := false, hasString := false, hasBoolean := false,
        hasDateTime := false, allDateTime := true } hnum hne
    have hdec : hasDecimal data = true := hasDecimal_of_mem hm hdot
    unfold InferColumnType
    rw [if_neg (fun h0 => hne (List.length_eq_zero.mp h0))]
    rw [hfold, hdec]
    simp
  · rintro ⟨v, hm, ht, hb1, hb2, hdt, hnum⟩
    have hne : data ≠ [] := List.ne_nil_of_mem hm
    obtain ⟨l, r, rfl⟩ := List.append_of_mem hm
    unfold InferColumnType
    rw [if_neg (fun h0 => hne (List.length_eq_zero.mp h0))]
    dsimp only
    rw [List.foldl_append, List.foldl_cons,
      inferStep_poison ht hb1 hb2 hdt hnum]
    obtain ⟨hs, had⟩ := foldl_hasString_allDateTime r
      { hasNumber := (List.foldl inferStep
          { hasNumber := false, hasString := false, hasBoolean := false,
            hasDateTime := false, allDateTime := true } l).hasNumber,
        hasString := true,
        hasBoolean := (List.foldl inferStep
          { hasNumber := false, hasString := false, hasBoolean := false,
            hasDateTime := false, allDateTime := true } l).hasBoolean,
        hasDateTime := (List.foldl inferStep
          { hasNumber := false, hasString := false, hasBoolean := false,
            hasDateTime := false, allDateTime := true } l).hasDateTime,
        allDateTime := false } rfl rfl
    rw [had, hs]
    simp

/-- C3 counterexample to the claim as frozen: the empty sample list (all
of whose entries are vacuously integer-looking) infers `string`, not
`integer`; and `" "` is a non-empty sample that is neither numeric, nor a
datetime, nor a boolean literal, yet `[some "1", some " "]` infers
`integer`, not `string` (the whitespace-only sample trims to empty and is
skipped). -/
theorem c3_infer_column_type_counterexample :
    InferColumnType ([] : List (Option String)) = "string" ∧
    ((" " : String) ≠ "" ∧ isNumeric " " = false ∧ isDateTime " " = false ∧
      goToLower " " ≠ "true" ∧ goToLower " " ≠ "false" ∧
      InferColumnType [some "1", some " "] = "integer") := by
  decide

/-- Witness for C3 at concrete sample lists. -/
theorem c3_infer_column_type_witness :
    InferColumnType [some "1", some "2", some "3"] = "integer" ∧
    InferColumnType [some "1", some "2.5"] = "number" ∧
    InferColumnType [some "1", some "abc"] = "string" :=
  ⟨(c3_infer_column_type [some "1", some "2", some "3"]).1
      ⟨by decide, by decide⟩,
    (c3_infer_column_type [some "1", some "2.5"]).2.1
      ⟨by decide, "2.5", by decide, by decide⟩,
    (c3_infer_column_type [some "1", some "abc"]).2.2
      ⟨"abc", by decide, by decide, by decide, by decide, by decide, by decide⟩⟩

end SSMigrate
